import Mathlib

/-!
# Gammy: adaptive display-brightness controller

A shallow embedding of the luminance estimator (`calcBrightness`), the capture
loop (`app`), the brightness ramp controller (`adjustBrightness`), the
configuration reader and writer (`readConfig`, `updateConfig`) and the min/max
slider handlers, followed by the properties established about them.

Conventions of the embedding:

* the `int` accumulators of `calcBrightness` wrap modulo `2^32` (`wrapInt`);
* the `float` expression of `calcBrightness` is evaluated in IEEE-754 binary32
  with round-to-nearest-even after every operation (`F32`);
* brightness values, offsets and counters elsewhere are far from the limits of
  their machine types and are modelled in `Int` / `Nat`;
* the two worker threads are modelled one loop body at a time; what one body
  reads of the other thread's writes is an explicit input.
-/

namespace Gammy

/-! ## Machine arithmetic -/

/-- A byte of the pixel buffer (`uint8_t`). -/
abbrev Byte := Fin 256

/-- Two's-complement wrap of a mathematical integer into the 32-bit `int` range. -/
def wrapInt (x : Int) : Int := (x + 2147483648) % 4294967296 - 2147483648

/-- Number of binary digits of `n`, by halving at most `fuel` times. -/
def bitLenAux : Nat → Nat → Nat
  | 0, _ => 0
  | fuel + 1, n => if n = 0 then 0 else bitLenAux fuel (n / 2) + 1

/-- Number of binary digits of `n` (`0` for `0`). -/
def bitLen (n : Nat) : Nat := bitLenAux n n

/-- A binary32 value `m * 2^e`. The representation is not normalised; the
exponent range is not modelled (every value of `calcBrightness` lies between
`2^-27` and `2^33` in magnitude, or is zero). -/
structure F32 where
  m : Int
  e : Int
deriving DecidableEq

namespace F32

/-- Round `m * 2^e` to a 24-bit significand, to nearest, ties to even. -/
def round (m e : Int) : F32 :=
  let a := m.natAbs
  let bits := bitLen a
  if bits ≤ 24 then ⟨m, e⟩
  else
    let sh := bits - 24
    let q := a / 2 ^ sh
    let rem := a % 2 ^ sh
    let half := 2 ^ (sh - 1)
    let q1 := if half < rem ∨ (rem = half ∧ q % 2 = 1) then q + 1 else q
    ⟨m.sign * (q1 : Int), e + (sh : Int)⟩

/-- Conversion `int -> float`. -/
def ofInt (n : Int) : F32 := round n 0

/-- Product of two floats, rounded once. -/
def mul (x y : F32) : F32 := round (x.m * y.m) (x.e + y.e)

/-- Sum of two floats, rounded once. -/
def add (x y : F32) : F32 :=
  let e := min x.e y.e
  round (x.m * 2 ^ (x.e - e).toNat + y.m * 2 ^ (y.e - e).toNat) e

/-- Conversion `float -> int`: truncation toward zero. -/
def toInt (x : F32) : Int :=
  if 0 ≤ x.e then x.m * 2 ^ x.e.toNat else Int.tdiv x.m (2 ^ (-x.e).toNat)

/-- The rational number a float stands for. -/
def val (x : F32) : ℚ := (x.m : ℚ) * (2 : ℚ) ^ x.e

/-- The literal `0.2126f`, i.e. `14267344 * 2^-26`. -/
def c2126 : F32 := ⟨14267344, -26⟩

/-- The literal `0.7152f`, i.e. `11999065 * 2^-24`. -/
def c7152 : F32 := ⟨11999065, -24⟩

/-- The literal `0.0722f`, i.e. `9690520 * 2^-27`. -/
def c0722 : F32 := ⟨9690520, -27⟩

end F32

/-! ## Luminance estimator (`calcBrightness`, main.cpp) -/

/-- The value `buf[i]` promoted to `int`. -/
def byteAt (buf : List Byte) (i : Nat) : Int := ((buf.getD i 0).val : Int)

/-- The loop `for (int i = bufLen - 4; i > 0; i -= 4)` with `i = 4 * k`:
it runs for `i = 4k, 4(k-1), ..., 4` and stops at `i = 0` without entering
the body. The triple is `(r_sum, g_sum, b_sum)`. -/
def sumLoop (buf : List Byte) : Nat → Int × Int × Int → Int × Int × Int
  | 0, acc => acc
  | k + 1, (r, g, b) =>
    sumLoop buf k
      (wrapInt (r + byteAt buf (4 * (k + 1) + 2)),
       wrapInt (g + byteAt buf (4 * (k + 1) + 1)),
       wrapInt (b + byteAt buf (4 * (k + 1))))

/-- The expression `int(r_sum * 0.2126f + g_sum * 0.7152f + b_sum * 0.0722f)`. -/
def weighted (r g b : Int) : Int :=
  F32.toInt
    (F32.add
      (F32.add (F32.mul (F32.ofInt r) F32.c2126) (F32.mul (F32.ofInt g) F32.c7152))
      (F32.mul (F32.ofInt b) F32.c0722))

/-- The function `calcBrightness(buf)` for a screen of `screenRes >= 1` pixels
(`bufLen = screenRes * 4`, so the loop starts at `i = 4 * (screenRes - 1)`;
the index `i` is exact in an `int` for buffers below `2^31` bytes). -/
def calcBrightness (screenRes : Nat) (buf : List Byte) : Int :=
  let s := sumLoop buf (screenRes - 1) (0, 0, 0)
  Int.tdiv (weighted s.1 s.2.1 s.2.2) (screenRes : Int)

/-! ## Configuration (`cfg`, main.cpp) -/

/-- The array `cfg`: pairs of a key string and an `int` value. -/
abbrev Cfg := List (List Char × Int)

/-- Number of entries of `cfg`. -/
def cfg_count : Nat := 7

/-- Index of the minimum brightness in `cfg`. -/
def MinBr : Nat := 0
/-- Index of the maximum brightness in `cfg`. -/
def MaxBr : Nat := 1
/-- Index of the offset in `cfg`. -/
def Offset : Nat := 2
/-- Index of the temperature step in `cfg`. -/
def Temp : Nat := 3
/-- Index of the ramp speed in `cfg`. -/
def Speed : Nat := 4
/-- Index of the change threshold in `cfg`. -/
def Threshold : Nat := 5
/-- Index of the polling interval in `cfg`. -/
def Polling_rate : Nat := 6

/-- The value `cfg[i].second`. -/
def second (cfg : Cfg) (i : Nat) : Int := (cfg.getD i ([], 0)).2

/-- The key `cfg[i].first`. -/
def first (cfg : Cfg) (i : Nat) : List Char := (cfg.getD i ([], 0)).1

/-- Modelled from the spec: the constant `default_brightness` of main.h, the
full brightness of the gamma ramp (255). -/
def default_brightness : Int := 255

/-- Modelled from the spec: the key strings `min_br_str` .. `polling_rate_str`
of main.h, each recognised key followed by `=`. -/
def keyStrings : List (List Char) :=
  ["min_br=".toList, "max_br=".toList, "offset=".toList, "temp_step=".toList,
   "speed=".toList, "threshold=".toList, "polling_rate=".toList]

/-- The compiled-in values of `cfg`, in the order of the initialiser. -/
def defaultValues : List Int := [176, 255, 70, 1, 3, 32, 100]

/-- The initial value of the global `cfg`. -/
def defaultCfg : Cfg := keyStrings.zip defaultValues

/-! ## Shared control state (`Args` and the global `scrBr`, main.cpp) -/

/-- The fields of `Args` that the two loops exchange, together with the
global `scrBr`. The field `img_delta` is a `float` in the source that only
ever holds sums of small integers, which binary32 represents exactly. -/
structure Shared where
  img_br : Int
  target_br : Int
  img_delta : Int
  callcnt : Nat
  scrBr : Int
deriving DecidableEq

/-! ## Capture loop (`app`, main.cpp) -/

/-- Local variables of `app` that live across iterations; `once` is true
until `std::call_once` has run. -/
structure AppLocals where
  old_imgBr : Int
  old_min : Int
  old_max : Int
  old_offset : Int
  forceChange : Bool
  once : Bool
deriving DecidableEq

/-- The value of `args.img_delta` after
`args.img_delta += abs(old_imgBr - args.img_br)` and the `std::call_once`
that zeroes it in the first iteration. -/
def accumulated (luma : Int) (s : Shared) (l : AppLocals) : Int :=
  if l.once then 0 else s.img_delta + ((l.old_imgBr - luma).natAbs : Int)

/-- The candidate target of an iteration:
`default_brightness - args.img_br + cfg[Offset].second`, then capped at
`default_brightness`. -/
def candidate (cfg : Cfg) (luma : Int) : Int :=
  let t := default_brightness - luma + second cfg Offset
  if t > default_brightness then default_brightness else t

/-- One iteration of the `while (!wnd->quit)` loop of `app`, from the
assignment of `args.img_br` on; `luma` is the value `calcBrightness(buf)`. -/
def appBody (cfg : Cfg) (luma : Int) (s : Shared) (l : AppLocals) : Shared × AppLocals :=
  let s1 : Shared := { s with img_br := luma, img_delta := accumulated luma s l }
  let r : Shared × Bool :=
    if s1.img_delta > second cfg Threshold ∨ l.forceChange = true then
      let s2 : Shared := { s1 with target_br := candidate cfg s1.img_br }
      if s2.target_br ≠ s2.scrBr then ({ s2 with callcnt := s2.callcnt + 1 }, false)
      else ({ s2 with img_delta := 0 }, l.forceChange)
    else (s1, l.forceChange)
  let force : Bool :=
    if second cfg MinBr ≠ l.old_min ∨ second cfg MaxBr ≠ l.old_max
        ∨ second cfg Offset ≠ l.old_offset then true
    else r.2
  (r.1,
   { old_imgBr := r.1.img_br, old_min := second cfg MinBr, old_max := second cfg MaxBr,
     old_offset := second cfg Offset, forceChange := force, once := false })

/-- One full iteration of the capture loop on a snapshot `buf`. -/
def appIter (cfg : Cfg) (screenRes : Nat) (buf : List Byte) (s : Shared) (l : AppLocals) :
    Shared × AppLocals :=
  appBody cfg (calcBrightness screenRes buf) s l

/-! ## Brightness ramp controller (`adjustBrightness`, main.cpp) -/

/-- Local variables `c` and `old_c` of `adjustBrightness`. -/
structure CtlLocals where
  c : Nat
  old_c : Nat
deriving DecidableEq

/-- State of the stepping loop: the live brightness, the target, and the
brightness values handed to the gamma sink so far (one per step). -/
structure Ramp where
  scrBr : Int
  target_br : Int
  steps : List Int
deriving DecidableEq

/-- The clamp of `args.target_br` at the start of a pass. -/
def clampTarget (cfg : Cfg) (t : Int) : Int :=
  if t > second cfg MaxBr then second cfg MaxBr
  else if t < second cfg MinBr then second cfg MinBr
  else t

/-- The step `if (scrBr < args.target_br) ++scrBr; else --scrBr;`. -/
def stepOnce (scrBr target_br : Int) : Int :=
  if scrBr < target_br then scrBr + 1 else scrBr - 1

/-- The loop `while (scrBr != args.target_br && c == args.callcnt)`.
`gen k` is the value of `args.callcnt` that the loop condition reads after
`k` steps (the capture loop runs concurrently; its stores to
`args.target_br` during a pass are not modelled). `none` means the fuel ran
out before the loop ended. -/
def rampLoop (cfg : Cfg) (c : Nat) (gen : Nat → Nat) : Nat → Nat → Ramp → Option Ramp
  | 0, k, r => if r.scrBr ≠ r.target_br ∧ c = gen k then none else some r
  | fuel + 1, k, r =>
    if r.scrBr ≠ r.target_br ∧ c = gen k then
      let scr := stepOnce r.scrBr r.target_br
      if scr = second cfg MinBr ∨ scr = second cfg MaxBr then
        some { scrBr := scr, target_br := scr, steps := r.steps ++ [scr] }
      else
        rampLoop cfg c gen fuel (k + 1)
          { scrBr := scr, target_br := r.target_br, steps := r.steps ++ [scr] }
    else some r

/-- The wait predicate `args.callcnt > old_c` that releases a pass. -/
def released (s : Shared) (l : CtlLocals) : Prop := s.callcnt > l.old_c

instance (s : Shared) (l : CtlLocals) : Decidable (released s l) := by
  unfold released; infer_instance

/-- The first value of `sleeptime`:
`(100 - int(args.img_delta) / 4) / cfg[Speed].second`. -/
def sleepBase (cfg : Cfg) (img_delta : Int) : Int :=
  Int.tdiv (100 - Int.tdiv img_delta 4) (second cfg Speed)

/-- What a pass of the controller leaves behind. -/
structure PassResult where
  shared : Shared
  locals : CtlLocals
  sleeptime : Int
  steps : List Int
deriving DecidableEq

/-- One pass of the outer loop of `adjustBrightness`, from `c = args.callcnt`
to `old_c = c`, entered once the wait has been released. -/
def adjustBrightnessPass (cfg : Cfg) (gen : Nat → Nat) (fuel : Nat) (s : Shared)
    (_l : CtlLocals) : Option PassResult :=
  let c := s.callcnt
  let sleep0 := sleepBase cfg s.img_delta
  let t := clampTarget cfg s.target_br
  let sleeptime := if s.scrBr < t then Int.tdiv sleep0 3 else sleep0
  match rampLoop cfg c gen fuel 0 { scrBr := s.scrBr, target_br := t, steps := [] } with
  | none => none
  | some r =>
    some
      { shared := { s with img_delta := 0, target_br := r.target_br, scrBr := r.scrBr }
        locals := { c := c, old_c := c }
        sleeptime := sleeptime
        steps := r.steps }

/-! ## Configuration file (`readConfig`, main.cpp) -/

/-- The line feed that `std::getline` splits on. -/
def newline : Char := Char.ofNat 10

/-- The lines that successive `std::getline` calls return; `cur` is the line
read so far, in reverse. A final line without line feed is returned too. -/
def getLines : List Char → List Char → List (List Char)
  | [], cur => if cur.isEmpty then [] else [cur.reverse]
  | ch :: rest, cur =>
    if ch = newline then cur.reverse :: getLines rest []
    else getLines rest (ch :: cur)

/-- The part of a line after its first `=`: `line.substr(line.find('=') + 1)`.
When there is no `=`, `find` returns `npos` and `npos + 1` is `0`, so the
whole line is returned. -/
def afterEquals (line : List Char) : List Char :=
  if line.contains '=' then (line.dropWhile (fun ch => ch != '=')).drop 1 else line

/-- White space in the sense of `isspace` (C locale). -/
def isSpace (ch : Char) : Bool := ch.toNat = 32 || (9 ≤ ch.toNat && ch.toNat ≤ 13)

/-- Accumulate the leading decimal digits of a string. -/
def digitsValue : List Char → Nat → Nat
  | [], acc => acc
  | ch :: rest, acc =>
    if ch.isDigit then digitsValue rest (acc * 10 + (ch.toNat - 48)) else acc

/-- Whether a string starts with a decimal digit. -/
def startsWithDigit (s : List Char) : Bool :=
  match s with
  | [] => false
  | ch :: _ => ch.isDigit

/-- The conversion `std::stoi(val)`: leading white space, an optional sign,
then at least one digit; what follows the digits is ignored. `none` stands
for the exception thrown when there is no digit (`std::invalid_argument`) or
the value does not fit an `int` (`std::out_of_range`). -/
def stoi (val : List Char) : Option Int :=
  let s := val.dropWhile isSpace
  let neg : Bool := s.head? = some '-'
  let body := if s.head? = some '-' ∨ s.head? = some '+' then s.drop 1 else s
  if startsWithDigit body then
    let n : Int := if neg then -(digitsValue body 0 : Int) else (digitsValue body 0 : Int)
    if -2147483648 ≤ n ∧ n ≤ 2147483647 then some n else none
  else none

/-- The assignment `cfg[c].second = v`. -/
def setSecond (cfg : Cfg) (c : Nat) (v : Int) : Cfg :=
  cfg.set c (first cfg c, v)

/-- The loop of `readConfig` over the lines of the file: every non-empty
line stores one value in `cfg[c++].second`. `none` stands for an exception
of `std::stoi` or a store past the end of the array. -/
def readLines : List (List Char) → Nat → Cfg → Option Cfg
  | [], _, cfg => some cfg
  | line :: rest, c, cfg =>
    if line.isEmpty then readLines rest c cfg
    else
      match stoi (afterEquals line) with
      | none => none
      | some v => if c < cfg.length then readLines rest (c + 1) (setSecond cfg c v) else none

/-- What `readConfig` writes to an empty file: the loop
`for (const auto &s : cfg[c++].first) file << s << '\n'` visits the
characters of the first key and writes each one followed by a line feed. -/
def writeDefaults (cfg : Cfg) : List Char :=
  (first cfg 0).flatMap fun ch => [ch, newline]

/-- The function `readConfig` on a configuration store that can be opened:
the result is the new content of the file and the new `cfg`, or `none` when
an exception escapes. -/
def readConfig (file : List Char) (cfg : Cfg) : Option (List Char × Cfg) :=
  if file.isEmpty then some (file ++ writeDefaults cfg, cfg)
  else (readLines (getLines file []) 0 cfg).map fun cfg1 => (file, cfg1)

/-! ## Configuration file (`updateConfig`, main.cpp) -/

/-- The decimal digit `d` as a character. -/
def digitChar (d : Nat) : Char := Char.ofNat (48 + d)

/-- The decimal digits of `n`, most significant first, put in front of
`acc`; the fuel bounds the number of digits. -/
def natDigitsAux : Nat → Nat → List Char → List Char
  | 0, _, acc => acc
  | fuel + 1, n, acc =>
    if n / 10 = 0 then digitChar (n % 10) :: acc
    else natDigitsAux fuel (n / 10) (digitChar (n % 10) :: acc)

/-- The conversion `std::to_string(val)` of an `int`: a minus sign for a
negative value, then the decimal digits of the magnitude. -/
def to_string (val : Int) : List Char :=
  if val < 0 then '-' :: natDigitsAux (val.natAbs + 1) val.natAbs []
  else natDigitsAux (val.natAbs + 1) val.natAbs []

/-- The function `updateConfig` on a store that can be opened: the new
content of the file, which is truncated first. The loop
`for (size_t i = 0; i < cfg_count; i++)` writes the line
`cfg[i].first + std::to_string(cfg[i].second)` and a line feed. -/
def updateConfig (cfg : Cfg) : List Char :=
  (List.range cfg_count).flatMap fun i => first cfg i ++ to_string (second cfg i) ++ [newline]

/-! ## Brightness bound sliders (`MainWindow`, mainwindow.cpp) -/

/-- The configuration entries `cfg["min_br"]` and `cfg["max_br"]` and the two
sliders bound to them. Both sliders have the range `lo .. hi` that
`setBrSlidersRange` gives them. -/
structure Ui where
  min_br : Int
  max_br : Int
  minBrSlider : Int
  maxBrSlider : Int
  lo : Int
  hi : Int
deriving DecidableEq

/-- The value a slider takes on `setValue(v)`: `v` bounded to the range. -/
def bounded (u : Ui) (v : Int) : Int := max u.lo (min u.hi v)

mutual
/-- The slot `on_minBrSlider_valueChanged(val)`. A call of
`ui->maxBrSlider->setValue` that changes the value of that slider emits
`valueChanged`, which runs the other slot before `setValue` returns; the
fuel bounds the nesting and `none` means it ran out. -/
def on_minBrSlider_valueChanged : Nat → Int → Ui → Option Ui
  | 0, _, _ => none
  | fuel + 1, val, u =>
    let r : Option Ui :=
      if val > u.max_br then
        let u1 : Ui := { u with max_br := val }
        if bounded u1 val = u1.maxBrSlider then some u1
        else on_maxBrSlider_valueChanged fuel (bounded u1 val)
               { u1 with maxBrSlider := bounded u1 val }
      else some u
    r.map fun u2 => { u2 with min_br := val }
/-- The slot `on_maxBrSlider_valueChanged(val)`, symmetric to the slot of the
minimum slider. -/
def on_maxBrSlider_valueChanged : Nat → Int → Ui → Option Ui
  | 0, _, _ => none
  | fuel + 1, val, u =>
    let r : Option Ui :=
      if val < u.min_br then
        let u1 : Ui := { u with min_br := val }
        if bounded u1 val = u1.minBrSlider then some u1
        else on_minBrSlider_valueChanged fuel (bounded u1 val)
               { u1 with minBrSlider := bounded u1 val }
      else some u
    r.map fun u2 => { u2 with max_br := val }
end

/-- The slot `on_manBrSlider_valueChanged(value)` as far as the live
brightness is concerned: `scr_br = value`. -/
def on_manBrSlider_valueChanged (value : Int) (s : Shared) : Shared :=
  { s with scrBr := value }

/-! ## Vocabulary of the statements -/

/-- The brightness `b` is one unit closer to the target `T` than `a`. -/
def toward (T a b : Int) : Prop := (a < T ∧ b = a + 1) ∨ (T < a ∧ b = a - 1)

/-- A key string contains `=` only as its last character. -/
def equalsOnlyLast (key : List Char) : Prop :=
  key.getLast? = some '=' ∧ '=' ∉ key.dropLast

instance (key : List Char) : Decidable (equalsOnlyLast key) := by
  unfold equalsOnlyLast; infer_instance

/-- A value fits an `int`. -/
def fitsInt (v : Int) : Prop := -2147483648 ≤ v ∧ v ≤ 2147483647

instance (v : Int) : Decidable (fitsInt v) := by
  unfold fitsInt; infer_instance

/-- The text of one line per entry: key, decimal value, line feed. -/
def configLines (entries : Cfg) : List Char :=
  entries.flatMap fun e => e.1 ++ to_string e.2 ++ [newline]

/-! ## The luma of the specification -/

/-- Sum over the pixels `0 .. n-1` of the byte at offset `off` of each pixel. -/
def channelSum (buf : List Byte) (off : Nat) : Nat → Int
  | 0 => 0
  | p + 1 => channelSum buf off p + byteAt buf (4 * p + off)

/-- The luma as the specification words it, in exact arithmetic:
`trunc(0.2126 * SumR + 0.7152 * SumG + 0.0722 * SumB) / n`, the sums taken
over all `n` pixels. -/
def lumaSpec (n : Nat) (buf : List Byte) : Int :=
  Int.tdiv
    (Int.tdiv
      (2126 * channelSum buf 2 n + 7152 * channelSum buf 1 n + 722 * channelSum buf 0 n) 10000)
    (n : Int)

/-! ## Properties of the luminance estimator -/

/-- Past the first four bytes, a buffer is read as its tail. -/
lemma byteAt_cons4 (a b c d : Byte) (rest : List Byte) (i : Nat) :
    byteAt (a :: b :: c :: d :: rest) (i + 4) = byteAt rest i := by
  simp only [byteAt, List.getD_eq_getElem?_getD, List.getElem?_cons_succ]

/-- The sums of the loop do not depend on the four bytes of the first pixel. -/
lemma sumLoop_first_pixel (a b c d a1 b1 c1 d1 : Byte) (rest : List Byte) :
    ∀ (k : Nat) (acc : Int × Int × Int),
      sumLoop (a :: b :: c :: d :: rest) k acc = sumLoop (a1 :: b1 :: c1 :: d1 :: rest) k acc := by
  intro k
  induction k with
  | zero => intro acc; rfl
  | succ k ih =>
    intro acc
    obtain ⟨r, g, bl⟩ := acc
    have e2 : 4 * (k + 1) + 2 = (4 * k + 2) + 4 := by omega
    have e1 : 4 * (k + 1) + 1 = (4 * k + 1) + 4 := by omega
    have e0 : 4 * (k + 1) = (4 * k) + 4 := by omega
    simp only [sumLoop]
    rw [e2, e1, e0]
    simp only [byteAt_cons4]
    exact ih _

/-- C1: on the one-pixel buffer `[255, 255, 255, 255]` the loop of
`calcBrightness` never runs (it stops at `i = 0`), so the function returns 0,
whereas the weighted sum over every pixel of the buffer is 255; and on every
buffer the result is the same whatever the four bytes of the pixel at byte
offset 0 are, so that pixel is not counted. -/
theorem calcBrightness_skips_pixel_zero :
    (calcBrightness 1 [255, 255, 255, 255] = 0 ∧ lumaSpec 1 [255, 255, 255, 255] = 255)
      ∧ ∀ (n : Nat) (a b c d a1 b1 c1 d1 : Byte) (rest : List Byte),
          calcBrightness n (a :: b :: c :: d :: rest)
            = calcBrightness n (a1 :: b1 :: c1 :: d1 :: rest) := by
  refine ⟨by decide, ?_⟩
  intro n a b c d a1 b1 c1 d1 rest
  simp only [calcBrightness]
  rw [sumLoop_first_pixel a b c d a1 b1 c1 d1 rest]

/-- C6: two buffers holding the same two pixels in opposite order get
different lumas (127 and 0), because the pixel at byte offset 0 is not read. -/
theorem calcBrightness_depends_on_pixel_order :
    List.Perm [[0, 0, 0, 0], [255, 255, 255, 255]] [[255, 255, 255, 255], [(0 : Byte), 0, 0, 0]]
      ∧ calcBrightness 2 (List.flatten [[0, 0, 0, 0], [255, 255, 255, 255]]) = 127
      ∧ calcBrightness 2 (List.flatten [[255, 255, 255, 255], [0, 0, 0, 0]]) = 0 := by
  refine ⟨List.Perm.swap _ _ _, ?_, ?_⟩ <;> decide

/-! ## Properties of the capture loop -/

/-- C2: an iteration that evaluates a target (accumulated delta above the
threshold, or force-change set) stores
`min (default_brightness - luma + offset) default_brightness` in
`target_br`; with offset 70 a luma of 0 gives 255 and a luma of 255 gives 70,
and the clamp of the controller to `[64, 255]` leaves 70 unchanged. -/
theorem appBody_target (cfg : Cfg) (luma : Int) (s : Shared) (l : AppLocals)
    (h : accumulated luma s l > second cfg Threshold ∨ l.forceChange = true) :
    (appBody cfg luma s l).1.target_br
        = min (default_brightness - luma + second cfg Offset) default_brightness
      ∧ (default_brightness = 255 ∧
          (second cfg Offset = 70 → candidate cfg 0 = 255 ∧ candidate cfg 255 = 70))
      ∧ (second cfg MinBr = 64 → second cfg MaxBr = 255 → clampTarget cfg 70 = 70) := by
  refine ⟨?_, ⟨rfl, ?_⟩, ?_⟩
  · simp only [appBody, if_pos h, candidate]
    split_ifs <;> simp only [min_def] <;> split_ifs <;> omega
  · intro ho
    simp [candidate, ho, default_brightness]
  · intro hmin hmax
    simp [clampTarget, hmin, hmax]

/-- C2 (witness): the first evaluation with the default configuration after a
change of the bounds, on a black screen. -/
theorem appBody_target_witness :
    (accumulated 0 ⟨0, 0, 0, 0, 200⟩ ⟨255, 0, 0, 0, true, false⟩ > second defaultCfg Threshold
        ∨ true = true)
      ∧ (appBody defaultCfg 0 ⟨0, 0, 0, 0, 200⟩ ⟨255, 0, 0, 0, true, false⟩).1.target_br = 255 := by
  refine ⟨Or.inr rfl, ?_⟩
  have h := (appBody_target defaultCfg 0 ⟨0, 0, 0, 0, 200⟩ ⟨255, 0, 0, 0, true, false⟩
    (Or.inr rfl)).1
  rw [h]
  decide

/-- C3: an iteration advances `callcnt` by exactly one when the accumulated
delta exceeds the threshold or force-change is set, and the candidate differs
from the live brightness; in every other case `callcnt` is unchanged. -/
theorem appBody_callcnt (cfg : Cfg) (luma : Int) (s : Shared) (l : AppLocals) :
    ((appBody cfg luma s l).1.callcnt = s.callcnt + 1
        ↔ (accumulated luma s l > second cfg Threshold ∨ l.forceChange = true)
            ∧ candidate cfg luma ≠ s.scrBr)
      ∧ ((appBody cfg luma s l).1.callcnt = s.callcnt + 1
          ∨ (appBody cfg luma s l).1.callcnt = s.callcnt)
      ∧ (candidate cfg luma = s.scrBr → (appBody cfg luma s l).1.callcnt = s.callcnt) := by
  by_cases h : accumulated luma s l > second cfg Threshold ∨ l.forceChange = true
  · by_cases hc : candidate cfg luma = s.scrBr
    · simp [appBody, h, hc]
    · simp [appBody, h, hc]
  · by_cases hc : candidate cfg luma = s.scrBr
    · simp [appBody, h, hc]
    · simp [appBody, h, hc]

/-! ## Properties of the brightness ramp controller -/

/-- The clamp lands between the bounds when they are ordered. -/
lemma clampTarget_mem (cfg : Cfg) (t : Int) (h : second cfg MinBr ≤ second cfg MaxBr) :
    second cfg MinBr ≤ clampTarget cfg t ∧ clampTarget cfg t ≤ second cfg MaxBr := by
  unfold clampTarget
  split_ifs <;> constructor <;> omega

/-- A walk toward a target between two bounds, started between them, stays
between them. -/
lemma chain_toward_bounds (T lo hi : Int) (hT : lo ≤ T ∧ T ≤ hi) :
    ∀ (l : List Int) (a : Int), lo ≤ a ∧ a ≤ hi → List.Chain (toward T) a l →
      ∀ b ∈ l, lo ≤ b ∧ b ≤ hi := by
  intro l
  induction l with
  | nil => intro a _ _ b hb; simp at hb
  | cons x xs ih =>
    intro a ha hc b hb
    rw [List.chain_cons] at hc
    have hx : lo ≤ x ∧ x ≤ hi := by
      rcases hc.1 with ⟨h1, h2⟩ | ⟨h1, h2⟩ <;> constructor <;> omega
    rcases List.mem_cons.1 hb with rfl | hb
    · exact hx
    · exact ih x hx hc.2 b hb

/-- A step moves the brightness one unit toward a target it has not reached. -/
lemma stepOnce_toward (a T : Int) (h : a ≠ T) : toward T a (stepOnce a T) := by
  unfold toward stepOnce
  split_ifs with hlt
  · exact Or.inl ⟨hlt, rfl⟩
  · exact Or.inr ⟨by omega, rfl⟩

/-- The stepping loop ends within `|scrBr - target_br|` steps; every step is
taken after reading the working generation, moves the brightness one unit
toward the target, and the loop leaves either the target it found or the
bound it reached. -/
lemma rampLoop_spec (cfg : Cfg) (c : Nat) (gen : Nat → Nat) :
    ∀ (fuel k : Nat) (r : Ramp), (r.scrBr - r.target_br).natAbs ≤ fuel →
      ∃ (r1 : Ramp) (new : List Int),
        rampLoop cfg c gen fuel k r = some r1
          ∧ r1.steps = r.steps ++ new
          ∧ List.Chain (toward r.target_br) r.scrBr new
          ∧ r1.scrBr = (new.getLast?).getD r.scrBr
          ∧ (∀ j, j < new.length → gen (k + j) = c)
          ∧ (r1.target_br = r.target_br
              ∨ (r1.target_br = r1.scrBr
                  ∧ (r1.scrBr = second cfg MinBr ∨ r1.scrBr = second cfg MaxBr)))
          ∧ (r1.scrBr = r1.target_br ∨ gen (k + new.length) ≠ c) := by
  intro fuel
  induction fuel with
  | zero =>
    intro k r h
    have heq : r.scrBr = r.target_br := by omega
    refine ⟨r, [], ?_, by simp, List.Chain.nil, by simp, by simp, Or.inl rfl, Or.inl heq⟩
    simp [rampLoop, heq]
  | succ fuel ih =>
    intro k r h
    by_cases hcond : r.scrBr ≠ r.target_br ∧ c = gen k
    · obtain ⟨hne, hgen⟩ := hcond
      have htow := stepOnce_toward r.scrBr r.target_br hne
      by_cases hb : stepOnce r.scrBr r.target_br = second cfg MinBr
          ∨ stepOnce r.scrBr r.target_br = second cfg MaxBr
      · refine ⟨⟨stepOnce r.scrBr r.target_br, stepOnce r.scrBr r.target_br,
            r.steps ++ [stepOnce r.scrBr r.target_br]⟩,
          [stepOnce r.scrBr r.target_br], ?_, rfl,
          List.Chain.cons htow List.Chain.nil, by simp, ?_, Or.inr ⟨rfl, hb⟩, Or.inl rfl⟩
        · simp only [rampLoop]
          rw [if_pos ⟨hne, hgen⟩, if_pos hb]
        · intro j hj
          have hj0 : j = 0 := by simpa using hj
          subst hj0
          simpa using hgen.symm
      · have hfuel : (stepOnce r.scrBr r.target_br - r.target_br).natAbs ≤ fuel := by
          unfold stepOnce
          split_ifs <;> omega
        obtain ⟨r1, new, h1, h2, h3, h4, h5, h6, h7⟩ :=
          ih (k + 1) ⟨stepOnce r.scrBr r.target_br, r.target_br,
            r.steps ++ [stepOnce r.scrBr r.target_br]⟩ hfuel
        refine ⟨r1, stepOnce r.scrBr r.target_br :: new,
          ?_, ?_, List.Chain.cons htow h3, ?_, ?_, h6, ?_⟩
        · simp only [rampLoop]
          rw [if_pos ⟨hne, hgen⟩, if_neg hb]
          exact h1
        · rw [h2]; simp
        · rw [h4]
          cases new with
          | nil => simp
          | cons y ys =>
            simp [List.getLast?_cons_cons, List.getLast?_eq_getLast _ (List.cons_ne_nil y ys)]
        · intro j hj
          cases j with
          | zero => simpa using hgen.symm
          | succ j =>
            have := h5 j (by simpa using hj)
            rw [← this]
            congr 1
            omega
        · rcases h7 with h7 | h7
          · exact Or.inl h7
          · refine Or.inr ?_
            have e : k + (stepOnce r.scrBr r.target_br :: new).length
                = k + 1 + new.length := by
              simp only [List.length_cons]; omega
            rw [e]
            exact h7
    · refine ⟨r, [], ?_, by simp, List.Chain.nil, by simp, by simp, Or.inl rfl, ?_⟩
      · simp only [rampLoop]
        rw [if_neg hcond]
      · by_cases he : r.scrBr = r.target_br
        · exact Or.inl he
        · refine Or.inr ?_
          intro hg
          exact hcond ⟨he, by simpa using hg.symm⟩

/-- A pass of the controller with enough fuel returns, and what it returns is
described by `rampLoop_spec` for the clamped target. -/
lemma adjustBrightnessPass_spec (cfg : Cfg) (gen : Nat → Nat) (fuel : Nat) (s : Shared)
    (l : CtlLocals) (hfuel : (s.scrBr - clampTarget cfg s.target_br).natAbs ≤ fuel) :
    ∃ r : PassResult,
      adjustBrightnessPass cfg gen fuel s l = some r
        ∧ r.shared.callcnt = s.callcnt
        ∧ r.locals = ⟨s.callcnt, s.callcnt⟩
        ∧ List.Chain (toward (clampTarget cfg s.target_br)) s.scrBr r.steps
        ∧ r.shared.scrBr = (r.steps.getLast?).getD s.scrBr
        ∧ (∀ j, j < r.steps.length → gen j = s.callcnt)
        ∧ (r.shared.target_br = clampTarget cfg s.target_br
            ∨ (r.shared.target_br = r.shared.scrBr
                ∧ (r.shared.scrBr = second cfg MinBr ∨ r.shared.scrBr = second cfg MaxBr)))
        ∧ (r.shared.scrBr = r.shared.target_br ∨ gen r.steps.length ≠ s.callcnt) := by
  obtain ⟨r1, new, h1, h2, h3, h4, h5, h6, h7⟩ :=
    rampLoop_spec cfg s.callcnt gen fuel 0 ⟨s.scrBr, clampTarget cfg s.target_br, []⟩ hfuel
  have hnew : r1.steps = new := by simpa using h2
  refine ⟨⟨{ s with img_delta := 0, target_br := r1.target_br, scrBr := r1.scrBr },
      ⟨s.callcnt, s.callcnt⟩,
      if s.scrBr < clampTarget cfg s.target_br then
        Int.tdiv (sleepBase cfg s.img_delta) 3 else sleepBase cfg s.img_delta,
      r1.steps⟩, ?_, ?_, ?_, ?_, ?_, ?_, ?_, ?_⟩
  · simp only [adjustBrightnessPass, h1]
  · rfl
  · rfl
  · simpa [hnew] using h3
  · simpa [hnew] using h4
  · intro j hj
    have := h5 j (by simpa [hnew] using hj)
    simpa using this
  · simpa using h6
  · simpa [hnew] using h7

/-- C10 (counterexample): with the default bounds `[176, 255]`, a pass that
finds the published target 70 leaves 176 in `target_br`; and the slot of the
manual brightness slider writes the live brightness, which the controller is
not alone to write. -/
theorem adjustBrightnessPass_writes_target :
    (adjustBrightnessPass defaultCfg (fun _ => 1) 0 ⟨0, 70, 0, 1, 176⟩ ⟨0, 0⟩).map
        (fun r => r.shared.target_br) = some 176
      ∧ (176 : Int) ≠ 70
      ∧ (on_manBrSlider_valueChanged 100 ⟨0, 70, 0, 1, 176⟩).scrBr = 100 := by
  decide

/-- C10 (amended): a pass of the controller leaves `callcnt` as it found it,
and leaves in `target_br` either the clamp of the target it found or the
bound at which the live brightness stopped; an iteration of the capture loop
leaves `scrBr` as it found it; the slot of the manual brightness slider sets
`scrBr` to the slider value and leaves `target_br` and `callcnt` alone. -/
theorem frame_of_the_loops (cfg : Cfg) (gen : Nat → Nat) (fuel : Nat) (s : Shared)
    (l : CtlLocals) (hfuel : (s.scrBr - clampTarget cfg s.target_br).natAbs ≤ fuel) :
    (∃ r : PassResult,
      adjustBrightnessPass cfg gen fuel s l = some r
        ∧ r.shared.callcnt = s.callcnt
        ∧ (r.shared.target_br = clampTarget cfg s.target_br
            ∨ (r.shared.target_br = r.shared.scrBr
                ∧ (r.shared.scrBr = second cfg MinBr ∨ r.shared.scrBr = second cfg MaxBr))))
      ∧ (∀ (luma : Int) (al : AppLocals), (appBody cfg luma s al).1.scrBr = s.scrBr)
      ∧ ∀ value : Int,
          (on_manBrSlider_valueChanged value s).scrBr = value
            ∧ (on_manBrSlider_valueChanged value s).target_br = s.target_br
            ∧ (on_manBrSlider_valueChanged value s).callcnt = s.callcnt := by
  refine ⟨?_, ?_, ?_⟩
  · obtain ⟨r, h1, h2, -, -, -, -, h7, -⟩ := adjustBrightnessPass_spec cfg gen fuel s l hfuel
    exact ⟨r, h1, h2, h7⟩
  · intro luma al
    simp only [appBody]
    split_ifs <;> rfl
  · intro value
    exact ⟨rfl, rfl, rfl⟩

/-- C10 (witness): the pass of the counterexample. -/
theorem frame_of_the_loops_witness :
    (∃ r : PassResult,
      adjustBrightnessPass defaultCfg (fun _ => 1) 0 ⟨0, 70, 0, 1, 176⟩ ⟨0, 0⟩ = some r
        ∧ r.shared.callcnt = 1
        ∧ (r.shared.target_br = clampTarget defaultCfg 70
            ∨ (r.shared.target_br = r.shared.scrBr
                ∧ (r.shared.scrBr = second defaultCfg MinBr
                    ∨ r.shared.scrBr = second defaultCfg MaxBr))))
      ∧ ∀ (luma : Int) (al : AppLocals),
          (appBody defaultCfg luma ⟨0, 70, 0, 1, 176⟩ al).1.scrBr = 176 :=
  ⟨(frame_of_the_loops defaultCfg (fun _ => 1) 0 ⟨0, 70, 0, 1, 176⟩ ⟨0, 0⟩ (by decide)).1,
   (frame_of_the_loops defaultCfg (fun _ => 1) 0 ⟨0, 70, 0, 1, 176⟩ ⟨0, 0⟩ (by decide)).2.1⟩

/-! ## Properties of the configuration file -/

/-- C8: on an empty store `readConfig` writes the seven characters of the
first key, one per line, and no value; reading that file back fails on its
first line (`std::stoi` of `m` throws), so the defaults are not read back. -/
theorem readConfig_defaults_not_read_back :
    readConfig [] defaultCfg
        = some (['m', newline, 'i', newline, 'n', newline, '_', newline, 'b', newline,
                 'r', newline, '=', newline], defaultCfg)
      ∧ readConfig ['m', newline, 'i', newline, 'n', newline, '_', newline, 'b', newline,
                    'r', newline, '=', newline] defaultCfg = none := by
  decide

/-! ## Properties of the brightness bound sliders -/

/-- C9: with `min_br <= max_br` and a value `val` of the sliders' range,
either slot returns (nesting depth at most two), the bounds are still ordered
afterwards, the bound that was moved equals `val`, and the other bound is
`val` when `val` crossed it and unchanged otherwise. -/
theorem slider_slots_keep_order (fuel : Nat) (val : Int) (u : Ui)
    (hord : u.min_br ≤ u.max_br) (hlo : u.lo ≤ val) (hhi : val ≤ u.hi) (hfuel : 2 ≤ fuel) :
    (∃ u1 : Ui, on_minBrSlider_valueChanged fuel val u = some u1
        ∧ u1.min_br ≤ u1.max_br ∧ u1.min_br = val
        ∧ u1.max_br = (if val > u.max_br then val else u.max_br))
      ∧ (∃ u1 : Ui, on_maxBrSlider_valueChanged fuel val u = some u1
        ∧ u1.min_br ≤ u1.max_br ∧ u1.max_br = val
        ∧ u1.min_br = (if val < u.min_br then val else u.min_br)) := by
  obtain ⟨f, rfl⟩ : ∃ f, fuel = f + 2 := ⟨fuel - 2, by omega⟩
  have hb1 : bounded { u with max_br := val } val = val := by
    unfold bounded
    rw [min_eq_right hhi, max_eq_right hlo]
  have hb2 : bounded { u with min_br := val } val = val := by
    unfold bounded
    rw [min_eq_right hhi, max_eq_right hlo]
  constructor
  · by_cases hc : val > u.max_br
    · by_cases hs : val = u.maxBrSlider
      · refine ⟨{ u with max_br := val, min_br := val }, ?_, le_refl _, rfl, by rw [if_pos hc]⟩
        simp only [on_minBrSlider_valueChanged, if_pos hc, hb1, if_pos hs, Option.map_some']
      · refine ⟨{ u with max_br := val, min_br := val, maxBrSlider := val }, ?_, le_refl _,
          rfl, by rw [if_pos hc]⟩
        have hnm : ¬ val < u.min_br := by omega
        simp only [on_minBrSlider_valueChanged, on_maxBrSlider_valueChanged, if_pos hc, hb1,
          if_neg hs, if_neg hnm, Option.map_some']
    · refine ⟨{ u with min_br := val }, ?_, by simp only; omega, rfl, by rw [if_neg hc]⟩
      simp only [on_minBrSlider_valueChanged, if_neg hc, Option.map_some']
  · by_cases hc : val < u.min_br
    · by_cases hs : val = u.minBrSlider
      · refine ⟨{ u with min_br := val, max_br := val }, ?_, le_refl _, rfl, by rw [if_pos hc]⟩
        simp only [on_maxBrSlider_valueChanged, if_pos hc, hb2, if_pos hs, Option.map_some']
      · refine ⟨{ u with min_br := val, max_br := val, minBrSlider := val }, ?_, le_refl _,
          rfl, by rw [if_pos hc]⟩
        have hnm : ¬ val > u.max_br := by omega
        simp only [on_minBrSlider_valueChanged, on_maxBrSlider_valueChanged, if_pos hc, hb2,
          if_neg hs, if_neg hnm, Option.map_some']
    · refine ⟨{ u with max_br := val }, ?_, by simp only; omega, rfl, by rw [if_neg hc]⟩
      simp only [on_maxBrSlider_valueChanged, if_neg hc, Option.map_some']

/-- C9 (witness): the minimum slider dragged to 200 above a maximum of 150;
the nested slot of the maximum slider runs and both bounds end at 200. -/
theorem slider_slots_keep_order_witness :
    (∃ u1 : Ui, on_minBrSlider_valueChanged 2 200 ⟨100, 150, 200, 150, 64, 255⟩ = some u1
        ∧ u1.min_br ≤ u1.max_br ∧ u1.min_br = 200
        ∧ u1.max_br = (if 200 > (150 : Int) then 200 else 150))
      ∧ (∃ u1 : Ui, on_maxBrSlider_valueChanged 2 200 ⟨100, 150, 200, 150, 64, 255⟩ = some u1
        ∧ u1.min_br ≤ u1.max_br ∧ u1.max_br = 200
        ∧ u1.min_br = (if 200 < (100 : Int) then 200 else 100)) :=
  slider_slots_keep_order 2 200 ⟨100, 150, 200, 150, 64, 255⟩
    (by decide) (by decide) (by decide) (by decide)

/-! ## Range of the luma -/

/-- Inside the `int` range the wrap is the identity. -/
lemma wrapInt_of_mem (x : Int) (h1 : -2147483648 ≤ x) (h2 : x ≤ 2147483647) :
    wrapInt x = x := by
  unfold wrapInt; omega

/-- Wrapping an intermediate sum does not change the wrapped total. -/
lemma wrapInt_add (x y : Int) : wrapInt (wrapInt x + y) = wrapInt (x + y) := by
  unfold wrapInt; omega

/-- A byte promoted to `int` lies in `0 .. 255`. -/
lemma byteAt_mem (buf : List Byte) (i : Nat) : 0 ≤ byteAt buf i ∧ byteAt buf i ≤ 255 := by
  unfold byteAt
  have := (buf.getD i 0).isLt
  omega

/-- While `255 * k` more cannot overflow, the loop adds without wrapping:
each sum grows by at most `255 * k` and stays non-negative. -/
lemma sumLoop_mem (buf : List Byte) :
    ∀ (k : Nat) (r g b A : Int), 0 ≤ r → r ≤ A → 0 ≤ g → g ≤ A → 0 ≤ b → b ≤ A →
      A + 255 * (k : Int) ≤ 2147483647 →
      (0 ≤ (sumLoop buf k (r, g, b)).1 ∧ (sumLoop buf k (r, g, b)).1 ≤ A + 255 * (k : Int))
        ∧ (0 ≤ (sumLoop buf k (r, g, b)).2.1
            ∧ (sumLoop buf k (r, g, b)).2.1 ≤ A + 255 * (k : Int))
        ∧ (0 ≤ (sumLoop buf k (r, g, b)).2.2
            ∧ (sumLoop buf k (r, g, b)).2.2 ≤ A + 255 * (k : Int)) := by
  intro k
  induction k with
  | zero =>
    intro r g b A h1 h2 h3 h4 h5 h6 _
    simp only [sumLoop]
    refine ⟨⟨h1, by omega⟩, ⟨h3, by omega⟩, ⟨h5, by omega⟩⟩
  | succ k ih =>
    intro r g b A h1 h2 h3 h4 h5 h6 hA
    have hr := byteAt_mem buf (4 * (k + 1) + 2)
    have hg := byteAt_mem buf (4 * (k + 1) + 1)
    have hb := byteAt_mem buf (4 * (k + 1))
    push_cast at hA
    simp only [sumLoop]
    rw [wrapInt_of_mem _ (by omega) (by omega), wrapInt_of_mem _ (by omega) (by omega),
      wrapInt_of_mem _ (by omega) (by omega)]
    have := ih (r + byteAt buf (4 * (k + 1) + 2)) (g + byteAt buf (4 * (k + 1) + 1))
      (b + byteAt buf (4 * (k + 1))) (A + 255) (by omega) (by omega) (by omega) (by omega)
      (by omega) (by omega) (by omega)
    push_cast
    refine ⟨⟨this.1.1, by omega⟩, ⟨this.2.1.1, by omega⟩, ⟨this.2.2.1, by omega⟩⟩

/-- On a buffer of `N` bytes that are all 255, the loop over `k` pixels adds
`255 * k` to each sum, modulo `2^32`. -/
lemma sumLoop_replicate (N : Nat) :
    ∀ (k : Nat) (r g b : Int), 4 * k + 2 < N →
      sumLoop (List.replicate N 255) k (wrapInt r, wrapInt g, wrapInt b)
        = (wrapInt (r + 255 * (k : Int)), wrapInt (g + 255 * (k : Int)),
           wrapInt (b + 255 * (k : Int))) := by
  intro k
  induction k with
  | zero => intro r g b _; simp [sumLoop]
  | succ k ih =>
    intro r g b hN
    have hbyte : ∀ i, i < N → byteAt (List.replicate N 255) i = 255 := by
      intro i hi
      simp only [byteAt, List.getD_eq_getElem?_getD, List.getElem?_replicate_of_lt hi,
        Option.getD_some]
      rfl
    simp only [sumLoop]
    rw [hbyte _ (by omega), hbyte _ (by omega), hbyte _ (by omega), wrapInt_add, wrapInt_add,
      wrapInt_add, ih _ _ _ (by omega)]
    push_cast
    simp only [add_assoc, mul_add, mul_one, add_comm (255 : Int)]

/-- C7 (counterexample): on a screen of 8421506 white pixels each channel sum
reaches `255 * 8421505 = 2147483775`, which wraps to `-2147483521` in an
`int`, and the luma returned is `-254`. -/
theorem calcBrightness_negative :
    calcBrightness 8421506 (List.replicate (4 * 8421506) 255) = -254 := by
  have h := sumLoop_replicate (4 * 8421506) 8421505 0 0 0 (by decide)
  have w0 : wrapInt 0 = 0 := by decide
  rw [w0] at h
  simp only [calcBrightness]
  have e : 8421506 - 1 = 8421505 := by decide
  rw [e, h]
  decide

/-- Zero has no binary digit, whatever the fuel. -/
lemma bitLenAux_zero (f : Nat) : bitLenAux f 0 = 0 := by
  cases f <;> simp [bitLenAux]

/-- A non-zero number has at least its top bit: `2^(bitLen - 1) <= n`. -/
lemma bitLenAux_le (f : Nat) : ∀ n : Nat, n ≤ f → n ≠ 0 →
    1 ≤ bitLenAux f n ∧ 2 ^ (bitLenAux f n - 1) ≤ n := by
  induction f with
  | zero => intro n h hn; omega
  | succ f ih =>
    intro n h hn
    simp only [bitLenAux, if_neg hn]
    refine ⟨by omega, ?_⟩
    simp only [Nat.add_sub_cancel]
    by_cases h2 : n / 2 = 0
    · rw [h2, bitLenAux_zero]
      simp
      omega
    · obtain ⟨i1, i2⟩ := ih (n / 2) (by omega) h2
      have e : bitLenAux f (n / 2) = (bitLenAux f (n / 2) - 1) + 1 := by omega
      rw [e, pow_succ]
      omega

/-- The top bit of a non-zero number, for `bitLen`. -/
lemma bitLen_le (n : Nat) (hn : n ≠ 0) : 1 ≤ bitLen n ∧ 2 ^ (bitLen n - 1) ≤ n :=
  bitLenAux_le n n (le_refl n) hn

/-- Rounding a natural number to 24 bits raises it by at most `2^-24` of
itself. -/
lemma round_nat_le (a sh q1 : Nat) (hsh : 1 ≤ sh) (ha : 2 ^ (23 + sh) ≤ a)
    (hq : q1 = if 2 ^ (sh - 1) < a % 2 ^ sh ∨ (a % 2 ^ sh = 2 ^ (sh - 1) ∧ a / 2 ^ sh % 2 = 1)
      then a / 2 ^ sh + 1 else a / 2 ^ sh) :
    q1 * 2 ^ sh * 16777216 ≤ a * 16777217 := by
  have hdm := Nat.div_add_mod a (2 ^ sh)
  have hP : (2 : Nat) ^ sh = 2 * 2 ^ (sh - 1) := by
    have e : sh = (sh - 1) + 1 := by omega
    conv_lhs => rw [e, pow_succ]
    ring
  have hH : (2 : Nat) ^ (sh - 1) * 16777216 ≤ a := by
    have e : 23 + sh = (sh - 1) + 24 := by omega
    rw [e, pow_add] at ha
    simpa using ha
  split_ifs at hq with hc
  · have hrem : 2 ^ (sh - 1) ≤ a % 2 ^ sh := by
      rcases hc with hc | hc
      · omega
      · omega
    have e2 : q1 * 2 ^ sh = 2 ^ sh * (a / 2 ^ sh) + 2 ^ sh := by rw [hq]; ring
    rw [e2]
    omega
  · have e2 : q1 * 2 ^ sh = 2 ^ sh * (a / 2 ^ sh) := by rw [hq]; ring
    rw [e2]
    omega

/-- Rounding a non-negative value keeps it non-negative and raises it by at
most `2^-24` of itself. -/
lemma round_val_le (m e : Int) (hm : 0 ≤ m) :
    0 ≤ (F32.round m e).m
      ∧ (F32.round m e).val ≤ (m : ℚ) * (2 : ℚ) ^ e * (1 + 1 / 16777216) := by
  have h2e : (0 : ℚ) < (2 : ℚ) ^ e := zpow_pos (by norm_num) e
  have hmq : (0 : ℚ) ≤ (m : ℚ) := by exact_mod_cast hm
  by_cases hb : bitLen m.natAbs ≤ 24
  · have e1 : F32.round m e = ⟨m, e⟩ := by simp only [F32.round, if_pos hb]
    rw [e1]
    refine ⟨hm, ?_⟩
    simp only [F32.val]
    have : 0 ≤ (m : ℚ) * (2 : ℚ) ^ e := mul_nonneg hmq h2e.le
    nlinarith
  · have ha0 : m.natAbs ≠ 0 := by
      intro h0
      rw [h0] at hb
      exact hb (by decide)
    obtain ⟨-, hlow⟩ := bitLen_le m.natAbs ha0
    have hpos : 0 < m := by omega
    obtain ⟨q1, hq1⟩ : ∃ q1 : Nat, q1 =
        if 2 ^ (bitLen m.natAbs - 24 - 1) < m.natAbs % 2 ^ (bitLen m.natAbs - 24)
            ∨ (m.natAbs % 2 ^ (bitLen m.natAbs - 24) = 2 ^ (bitLen m.natAbs - 24 - 1)
                ∧ m.natAbs / 2 ^ (bitLen m.natAbs - 24) % 2 = 1)
        then m.natAbs / 2 ^ (bitLen m.natAbs - 24) + 1
        else m.natAbs / 2 ^ (bitLen m.natAbs - 24) := ⟨_, rfl⟩
    have e1 : F32.round m e
        = ⟨m.sign * (q1 : Int), e + ((bitLen m.natAbs - 24 : Nat) : Int)⟩ := by
      simp only [F32.round, if_neg hb]
      rw [hq1]
    have hnat := round_nat_le m.natAbs (bitLen m.natAbs - 24) q1 (by omega)
      (by
        have e : 23 + (bitLen m.natAbs - 24) = bitLen m.natAbs - 1 := by omega
        rw [e]; exact hlow) hq1
    have hsign : m.sign = 1 := Int.sign_eq_one_of_pos hpos
    rw [e1, hsign]
    refine ⟨by simp, ?_⟩
    simp only [F32.val, one_mul, Int.cast_natCast]
    rw [zpow_add₀ (by norm_num : (2 : ℚ) ≠ 0), zpow_natCast]
    have hmabs : (m : ℚ) = ((m.natAbs : Nat) : ℚ) := by
      rw [← Int.cast_natCast m.natAbs, Int.natAbs_of_nonneg hm]
    have hq : ((q1 : ℚ) * (2 : ℚ) ^ (bitLen m.natAbs - 24)) * 16777216
        ≤ (m : ℚ) * 16777217 := by
      rw [hmabs]
      exact_mod_cast hnat
    have key : (q1 : ℚ) * (2 : ℚ) ^ (bitLen m.natAbs - 24) ≤ (m : ℚ) * (1 + 1 / 16777216) := by
      linarith
    calc (q1 : ℚ) * ((2 : ℚ) ^ e * (2 : ℚ) ^ (bitLen m.natAbs - 24))
        = ((q1 : ℚ) * (2 : ℚ) ^ (bitLen m.natAbs - 24)) * (2 : ℚ) ^ e := by ring
      _ ≤ ((m : ℚ) * (1 + 1 / 16777216)) * (2 : ℚ) ^ e :=
          mul_le_mul_of_nonneg_right key h2e.le
      _ = (m : ℚ) * (2 : ℚ) ^ e * (1 + 1 / 16777216) := by ring

/-- Converting a non-negative `int` raises it by at most one rounding. -/
lemma ofInt_val_le (n : Int) (hn : 0 ≤ n) :
    0 ≤ (F32.ofInt n).m ∧ (F32.ofInt n).val ≤ (n : ℚ) * (1 + 1 / 16777216) := by
  have h := round_val_le n 0 hn
  simpa [F32.ofInt] using h

/-- A product of non-negative floats exceeds the exact product by at most one
rounding. -/
lemma mul_val_le (x y : F32) (hx : 0 ≤ x.m) (hy : 0 ≤ y.m) :
    0 ≤ (F32.mul x y).m ∧ (F32.mul x y).val ≤ x.val * y.val * (1 + 1 / 16777216) := by
  have h := round_val_le (x.m * y.m) (x.e + y.e) (mul_nonneg hx hy)
  refine ⟨h.1, ?_⟩
  have e : ((x.m * y.m : Int) : ℚ) * (2 : ℚ) ^ (x.e + y.e) = x.val * y.val := by
    simp only [F32.val]
    rw [zpow_add₀ (by norm_num : (2 : ℚ) ≠ 0)]
    push_cast
    ring
  rw [e] at h
  exact h.2

/-- Aligning a significand to a smaller exponent keeps the value. -/
lemma two_pow_toNat (a e : Int) (h : e ≤ a) :
    (2 : ℚ) ^ (a - e).toNat * (2 : ℚ) ^ e = (2 : ℚ) ^ a := by
  rw [← zpow_natCast, ← zpow_add₀ (by norm_num : (2 : ℚ) ≠ 0)]
  congr 1
  omega

/-- A sum of non-negative floats exceeds the exact sum by at most one
rounding. -/
lemma add_val_le (x y : F32) (hx : 0 ≤ x.m) (hy : 0 ≤ y.m) :
    0 ≤ (F32.add x y).m ∧ (F32.add x y).val ≤ (x.val + y.val) * (1 + 1 / 16777216) := by
  have hM : 0 ≤ x.m * 2 ^ (x.e - min x.e y.e).toNat + y.m * 2 ^ (y.e - min x.e y.e).toNat :=
    add_nonneg (mul_nonneg hx (by positivity)) (mul_nonneg hy (by positivity))
  have h := round_val_le _ (min x.e y.e) hM
  refine ⟨h.1, ?_⟩
  have e : ((x.m * 2 ^ (x.e - min x.e y.e).toNat + y.m * 2 ^ (y.e - min x.e y.e).toNat : Int) : ℚ)
      * (2 : ℚ) ^ (min x.e y.e) = x.val + y.val := by
    simp only [F32.val]
    push_cast
    rw [add_mul, mul_assoc, mul_assoc, two_pow_toNat x.e _ (min_le_left _ _),
      two_pow_toNat y.e _ (min_le_right _ _)]
  rw [e] at h
  exact h.2

/-- Truncating a non-negative float does not raise it. -/
lemma toInt_val_le (x : F32) (hx : 0 ≤ x.m) :
    0 ≤ F32.toInt x ∧ ((F32.toInt x : Int) : ℚ) ≤ x.val := by
  unfold F32.toInt
  split_ifs with he
  · refine ⟨mul_nonneg hx (by positivity), ?_⟩
    simp only [F32.val]
    push_cast
    have := two_pow_toNat x.e 0 he
    simp only [sub_zero, zpow_zero, mul_one] at this
    rw [this]
  · have hD : (0 : Int) < 2 ^ (-x.e).toNat := by positivity
    rw [Int.tdiv_eq_ediv hx hD.le]
    refine ⟨Int.ediv_nonneg hx hD.le, ?_⟩
    have h1 : x.m / 2 ^ (-x.e).toNat * 2 ^ (-x.e).toNat ≤ x.m := Int.ediv_mul_le _ hD.ne'
    have h1q : ((x.m / 2 ^ (-x.e).toNat : Int) : ℚ) * (2 : ℚ) ^ (-x.e).toNat ≤ (x.m : ℚ) := by
      exact_mod_cast h1
    have h2 : (2 : ℚ) ^ (-x.e).toNat * (2 : ℚ) ^ x.e = 1 := by
      have := two_pow_toNat 0 x.e (by omega)
      simpa using this
    have h2e : (0 : ℚ) < (2 : ℚ) ^ x.e := zpow_pos (by norm_num) x.e
    simp only [F32.val]
    calc ((x.m / 2 ^ (-x.e).toNat : Int) : ℚ)
        = ((x.m / 2 ^ (-x.e).toNat : Int) : ℚ) * (2 : ℚ) ^ (-x.e).toNat * (2 : ℚ) ^ x.e := by
          rw [mul_assoc, h2, mul_one]
      _ ≤ (x.m : ℚ) * (2 : ℚ) ^ x.e := mul_le_mul_of_nonneg_right h1q h2e.le

/-- The three significands have 24 bits and each literal is within half a
unit in the last place of its decimal value, so the literals are the binary32
numbers nearest to `0.2126`, `0.7152` and `0.0722`. -/
lemma weights_nearest :
    (bitLen F32.c2126.m.natAbs = 24 ∧ bitLen F32.c7152.m.natAbs = 24
        ∧ bitLen F32.c0722.m.natAbs = 24)
      ∧ |F32.c2126.val - 2126 / 10000| ≤ 1 / 2 ^ 27
      ∧ |F32.c7152.val - 7152 / 10000| ≤ 1 / 2 ^ 25
      ∧ |F32.c0722.val - 722 / 10000| ≤ 1 / 2 ^ 28 := by
  refine ⟨by decide, ?_, ?_, ?_⟩ <;>
    · rw [abs_le]
      constructor <;> norm_num [F32.val, F32.c2126, F32.c7152, F32.c0722]

/-- The values of the three weights; they add up to exactly one. -/
lemma weights_val :
    F32.c2126.val = 14267344 / 67108864 ∧ F32.c7152.val = 11999065 / 16777216
      ∧ F32.c0722.val = 9690520 / 134217728 := by
  refine ⟨?_, ?_, ?_⟩ <;> norm_num [F32.val, F32.c2126, F32.c7152, F32.c0722]

/-- The arithmetic of the error bound: three products and two sums, each
rounded up by a factor at most `U`, of inputs at most `S * U`, with weights
adding up to one. -/
lemma weighted_arith (S U c1 c2 c3 r g b pr pg pb a t : ℚ)
    (hS : 0 ≤ S) (hU : 1 ≤ U) (h1 : 0 ≤ c1) (h2 : 0 ≤ c2) (h3 : 0 ≤ c3)
    (hc : c1 + c2 + c3 = 1)
    (hr : r ≤ S * U) (hg : g ≤ S * U) (hb : b ≤ S * U)
    (hpr : pr ≤ r * c1 * U) (hpg : pg ≤ g * c2 * U) (hpb : pb ≤ b * c3 * U)
    (ha : a ≤ (pr + pg) * U) (ht : t ≤ (a + pb) * U) :
    t ≤ S * U ^ 4 := by
  have hU0 : 0 ≤ U := le_trans zero_le_one hU
  have e1 : pr ≤ S * U * c1 * U :=
    le_trans hpr (mul_le_mul_of_nonneg_right (mul_le_mul_of_nonneg_right hr h1) hU0)
  have e2 : pg ≤ S * U * c2 * U :=
    le_trans hpg (mul_le_mul_of_nonneg_right (mul_le_mul_of_nonneg_right hg h2) hU0)
  have e3 : pb ≤ S * U * c3 * U :=
    le_trans hpb (mul_le_mul_of_nonneg_right (mul_le_mul_of_nonneg_right hb h3) hU0)
  have e4 : a ≤ (S * U * c1 * U + S * U * c2 * U) * U :=
    le_trans ha (mul_le_mul_of_nonneg_right (add_le_add e1 e2) hU0)
  have e5 : t ≤ ((S * U * c1 * U + S * U * c2 * U) * U + S * U * c3 * U) * U :=
    le_trans ht (mul_le_mul_of_nonneg_right (add_le_add e4 e3) hU0)
  have e6 : S * U * c3 * U ≤ (S * U * c3 * U) * U :=
    le_mul_of_one_le_right (by positivity) hU
  have e7 : ((S * U * c1 * U + S * U * c2 * U) * U + S * U * c3 * U) * U
      ≤ ((S * U * c1 * U + S * U * c2 * U) * U + (S * U * c3 * U) * U) * U :=
    mul_le_mul_of_nonneg_right (add_le_add le_rfl e6) hU0
  have e8 : ((S * U * c1 * U + S * U * c2 * U) * U + (S * U * c3 * U) * U) * U
      = S * U ^ 4 * (c1 + c2 + c3) := by ring
  rw [hc, mul_one] at e8
  exact le_trans e5 (le_trans e7 (le_of_eq e8))

/-- For channel sums between `0` and `S` the weighted sum is non-negative
and exceeds `S` by at most four roundings. -/
lemma weighted_le (r g b S : Int) (hr : 0 ≤ r) (hg : 0 ≤ g) (hb : 0 ≤ b)
    (hrS : r ≤ S) (hgS : g ≤ S) (hbS : b ≤ S) :
    0 ≤ weighted r g b
      ∧ ((weighted r g b : Int) : ℚ) ≤ (S : ℚ) * (1 + 1 / 16777216) ^ 4 := by
  obtain ⟨c1, c2, c3⟩ := weights_val
  unfold weighted
  have hrq : (r : ℚ) ≤ (S : ℚ) := by exact_mod_cast hrS
  have hgq : (g : ℚ) ≤ (S : ℚ) := by exact_mod_cast hgS
  have hbq : (b : ℚ) ≤ (S : ℚ) := by exact_mod_cast hbS
  have hSq : (0 : ℚ) ≤ (S : ℚ) := by exact_mod_cast (le_trans hr hrS)
  have hU0 : (0 : ℚ) ≤ 1 + 1 / 16777216 := by norm_num
  obtain ⟨R0, R1⟩ := ofInt_val_le r hr
  obtain ⟨G0, G1⟩ := ofInt_val_le g hg
  obtain ⟨B0, B1⟩ := ofInt_val_le b hb
  obtain ⟨PR0, PR1⟩ := mul_val_le (F32.ofInt r) F32.c2126 R0 (by decide)
  obtain ⟨PG0, PG1⟩ := mul_val_le (F32.ofInt g) F32.c7152 G0 (by decide)
  obtain ⟨PB0, PB1⟩ := mul_val_le (F32.ofInt b) F32.c0722 B0 (by decide)
  obtain ⟨A0, A1⟩ := add_val_le _ _ PR0 PG0
  obtain ⟨T0, T1⟩ := add_val_le _ _ A0 PB0
  obtain ⟨W0, W1⟩ := toInt_val_le _ T0
  refine ⟨W0, le_trans W1 ?_⟩
  exact weighted_arith (S : ℚ) (1 + 1 / 16777216) F32.c2126.val F32.c7152.val F32.c0722.val
    (F32.ofInt r).val (F32.ofInt g).val (F32.ofInt b).val _ _ _ _ _ hSq (by norm_num)
    (by rw [c1]; norm_num) (by rw [c2]; norm_num) (by rw [c3]; norm_num)
    (by rw [c1, c2, c3]; norm_num)
    (le_trans R1 (mul_le_mul_of_nonneg_right hrq hU0))
    (le_trans G1 (mul_le_mul_of_nonneg_right hgq hU0))
    (le_trans B1 (mul_le_mul_of_nonneg_right hbq hU0))
    PR1 PG1 PB1 A1 T1

/-- C7 (amended): for a screen of at most 8421505 pixels, whose channel sums
cannot overflow an `int`, the luma of every buffer of `4 * screenRes` bytes
lies in `0 .. 255`. -/
theorem calcBrightness_range (screenRes : Nat) (buf : List Byte)
    (h1 : 1 ≤ screenRes) (hmax : screenRes ≤ 8421505) (_hlen : buf.length = 4 * screenRes) :
    0 ≤ calcBrightness screenRes buf ∧ calcBrightness screenRes buf ≤ 255 := by
  obtain ⟨k, rfl⟩ : ∃ k, screenRes = k + 1 := ⟨screenRes - 1, by omega⟩
  have hs := sumLoop_mem buf k 0 0 0 0 le_rfl le_rfl le_rfl le_rfl le_rfl le_rfl (by omega)
  simp only [zero_add] at hs
  obtain ⟨⟨r0, r1⟩, ⟨g0, g1⟩, ⟨b0, b1⟩⟩ := hs
  obtain ⟨w0, w1⟩ := weighted_le _ _ _ (255 * (k : Int)) r0 g0 b0 r1 g1 b1
  simp only [calcBrightness, Nat.add_sub_cancel]
  have hn : (0 : Int) < ((k + 1 : Nat) : Int) := by exact_mod_cast h1
  rw [Int.tdiv_eq_ediv w0 hn.le]
  refine ⟨Int.ediv_nonneg w0 hn.le, ?_⟩
  have hlt : weighted (sumLoop buf k (0, 0, 0)).1 (sumLoop buf k (0, 0, 0)).2.1
      (sumLoop buf k (0, 0, 0)).2.2 < 256 * ((k + 1 : Nat) : Int) := by
    have hU : ((1 : ℚ) + 1 / 16777216) ^ 4 ≤ 1 + 1 / 2097152 := by norm_num
    have hk : (0 : ℚ) ≤ (k : ℚ) := by positivity
    have hq : ((weighted (sumLoop buf k (0, 0, 0)).1 (sumLoop buf k (0, 0, 0)).2.1
        (sumLoop buf k (0, 0, 0)).2.2 : Int) : ℚ) < 256 * ((k : ℚ) + 1) := by
      push_cast at w1
      nlinarith
    exact_mod_cast hq
  have := Int.ediv_lt_of_lt_mul hn hlt
  omega

/-- C7 (witness): a screen of two pixels. -/
theorem calcBrightness_range_witness :
    0 ≤ calcBrightness 2 [0, 0, 0, 0, 255, 255, 255, 255]
      ∧ calcBrightness 2 [0, 0, 0, 0, 255, 255, 255, 255] ≤ 255 :=
  calcBrightness_range 2 [0, 0, 0, 0, 255, 255, 255, 255] (by decide) (by decide) (by decide)


/-! ## Sleep between the steps of a ramp -/

/-- A pass that returns has computed its sleep from the `img_delta` it found,
divided it by three when the brightness has to rise, and left `img_delta` at
zero. -/
lemma adjustBrightnessPass_sleeptime (cfg : Cfg) (gen : Nat → Nat) (fuel : Nat) (s : Shared)
    (l : CtlLocals) (r : PassResult) (h : adjustBrightnessPass cfg gen fuel s l = some r) :
    r.sleeptime
        = (if s.scrBr < clampTarget cfg s.target_br then Int.tdiv (sleepBase cfg s.img_delta) 3
            else sleepBase cfg s.img_delta)
      ∧ r.shared.img_delta = 0 := by
  simp only [adjustBrightnessPass] at h
  cases hr : rampLoop cfg s.callcnt gen fuel 0
      { scrBr := s.scrBr, target_br := clampTarget cfg s.target_br, steps := [] } with
  | none => rw [hr] at h; cases h
  | some r1 =>
    rw [hr] at h
    simp only [Option.some.injEq] at h
    subst h
    exact ⟨rfl, rfl⟩

/-- C11 (counterexample): with the default speed 3 and an accumulated delta
of 500 the sleep computed is `(100 - 125) / 3 = -8`: nothing floors it. -/
theorem sleeptime_negative :
    (adjustBrightnessPass defaultCfg (fun _ => 1) 0 ⟨0, 200, 500, 1, 200⟩ ⟨0, 0⟩).map
        (fun r => r.sleeptime) = some (-8) := by
  decide

/-- C11 (amended): for an accumulated delta `>= 0` and a speed `>= 1` the
sleep of a pass is `(100 - delta / 4) / speed`, both divisions truncating,
divided by 3 exactly when the live brightness is below the clamped target;
no floor is applied, and the value is non-negative whenever `delta <= 403`. -/
theorem sleeptime_value (cfg : Cfg) (gen : Nat → Nat) (fuel : Nat) (s : Shared) (l : CtlLocals)
    (hd : 0 ≤ s.img_delta) (hs : 1 ≤ second cfg Speed)
    (hfuel : (s.scrBr - clampTarget cfg s.target_br).natAbs ≤ fuel) :
    ∃ r : PassResult,
      adjustBrightnessPass cfg gen fuel s l = some r
        ∧ (s.scrBr < clampTarget cfg s.target_br →
            r.sleeptime
              = Int.tdiv (Int.tdiv (100 - Int.tdiv s.img_delta 4) (second cfg Speed)) 3)
        ∧ (¬ s.scrBr < clampTarget cfg s.target_br →
            r.sleeptime = Int.tdiv (100 - Int.tdiv s.img_delta 4) (second cfg Speed))
        ∧ (s.img_delta ≤ 403 → 0 ≤ r.sleeptime) := by
  obtain ⟨r, h1, -⟩ := adjustBrightnessPass_spec cfg gen fuel s l hfuel
  obtain ⟨h2, -⟩ := adjustBrightnessPass_sleeptime cfg gen fuel s l r h1
  refine ⟨r, h1, ?_, ?_, ?_⟩
  · intro hlt
    rw [h2, if_pos hlt]
    rfl
  · intro hlt
    rw [h2, if_neg hlt]
    rfl
  · intro h403
    have hq : Int.tdiv s.img_delta 4 = s.img_delta / 4 := Int.tdiv_eq_ediv hd (by decide)
    have hnum : 0 ≤ 100 - Int.tdiv s.img_delta 4 := by
      rw [hq]; omega
    have hbase : 0 ≤ sleepBase cfg s.img_delta :=
      Int.tdiv_nonneg hnum (by omega)
    rw [h2]
    split_ifs
    · exact Int.tdiv_nonneg hbase (by decide)
    · exact hbase

/-- C11 (witness): the default speed, a delta of 40 and a ramp upward from
200 to 225: the sleep is `((100 - 10) / 3) / 3 = 10`. -/
theorem sleeptime_value_witness :
    ∃ r : PassResult,
      adjustBrightnessPass defaultCfg (fun _ => 1) 25 ⟨100, 225, 40, 1, 200⟩ ⟨0, 0⟩ = some r
        ∧ r.sleeptime = 10 := by
  obtain ⟨r, h1, h2, -, -⟩ :=
    sleeptime_value defaultCfg (fun _ => 1) 25 ⟨100, 225, 40, 1, 200⟩ ⟨0, 0⟩
      (by decide) (by decide) (by decide)
  refine ⟨r, h1, ?_⟩
  rw [h2 (by decide)]
  decide


/-! ## Who clears the accumulated delta -/

/-- C12 (counterexample): with the default configuration, live brightness
255 and a luma that moves from 0 to 100, the iteration exceeds the threshold
32 and publishes the target 225, and `img_delta` is 100 when it ends; the
pass that follows computes its sleep from that 100, `(100 - 25) / 3 = 25`,
where a delta of 0 would give 33. -/
theorem appBody_keeps_delta_on_publish :
    accumulated 100 ⟨0, 0, 0, 0, 255⟩ ⟨0, 176, 255, 70, false, false⟩
        > second defaultCfg Threshold
      ∧ (appBody defaultCfg 100 ⟨0, 0, 0, 0, 255⟩ ⟨0, 176, 255, 70, false, false⟩).1
          = ⟨100, 225, 100, 1, 255⟩
      ∧ (adjustBrightnessPass defaultCfg (fun _ => 1) 30 ⟨100, 225, 100, 1, 255⟩ ⟨0, 0⟩).map
          (fun r => r.sleeptime) = some 25
      ∧ (adjustBrightnessPass defaultCfg (fun _ => 1) 30 ⟨100, 225, 0, 1, 255⟩ ⟨0, 0⟩).map
          (fun r => r.sleeptime) = some 33 := by
  decide

/-- C12 (amended): in an iteration that evaluates a target, `img_delta` ends
at 0 when the candidate equals the live brightness (nothing is published)
and keeps its accumulated value when a target is published; the pass of the
controller computes its sleep from the `img_delta` it finds and then leaves
`img_delta` at 0. -/
theorem img_delta_cleared (cfg : Cfg) (luma : Int) (s : Shared) (al : AppLocals)
    (gen : Nat → Nat) (fuel : Nat) (s2 : Shared) (l : CtlLocals)
    (hev : accumulated luma s al > second cfg Threshold ∨ al.forceChange = true)
    (hfuel : (s2.scrBr - clampTarget cfg s2.target_br).natAbs ≤ fuel) :
    (candidate cfg luma = s.scrBr → (appBody cfg luma s al).1.img_delta = 0)
      ∧ (candidate cfg luma ≠ s.scrBr →
          (appBody cfg luma s al).1.img_delta = accumulated luma s al)
      ∧ ∃ r : PassResult,
          adjustBrightnessPass cfg gen fuel s2 l = some r
            ∧ r.sleeptime
                = (if s2.scrBr < clampTarget cfg s2.target_br
                    then Int.tdiv (sleepBase cfg s2.img_delta) 3
                    else sleepBase cfg s2.img_delta)
            ∧ r.shared.img_delta = 0 := by
  refine ⟨?_, ?_, ?_⟩
  · intro hc
    simp [appBody, hev, hc]
  · intro hc
    simp [appBody, hev, hc]
  · obtain ⟨r, h1, -⟩ := adjustBrightnessPass_spec cfg gen fuel s2 l hfuel
    obtain ⟨h2, h3⟩ := adjustBrightnessPass_sleeptime cfg gen fuel s2 l r h1
    exact ⟨r, h1, h2, h3⟩

/-- C12 (witness): the iteration and the pass of the counterexample. -/
theorem img_delta_cleared_witness :
    (appBody defaultCfg 100 ⟨0, 0, 0, 0, 255⟩ ⟨0, 176, 255, 70, false, false⟩).1.img_delta
        = 100
      ∧ ∃ r : PassResult,
          adjustBrightnessPass defaultCfg (fun _ => 1) 30 ⟨100, 225, 100, 1, 255⟩ ⟨0, 0⟩
              = some r
            ∧ r.shared.img_delta = 0 := by
  obtain ⟨-, h2, r, h3, -, h5⟩ :=
    img_delta_cleared defaultCfg 100 ⟨0, 0, 0, 0, 255⟩ ⟨0, 176, 255, 70, false, false⟩
      (fun _ => 1) 30 ⟨100, 225, 100, 1, 255⟩ ⟨0, 0⟩ (Or.inl (by decide)) (by decide)
  refine ⟨?_, r, h3, h5⟩
  rw [h2 (by decide)]
  decide

/-! ## Convergence of a ramp that is not preempted -/

/-- A structure equals the record of its fields. -/
lemma ramp_eta (r : Ramp) : r = ⟨r.scrBr, r.target_br, r.steps⟩ := by
  cases r; rfl

/-- When the generation never changes and the brightness starts between the
bounds, the loop walks to its target, which lies between the bounds too, in
exactly `|scrBr - target_br|` steps. -/
lemma rampLoop_unpreempted (cfg : Cfg) (c : Nat) (gen : Nat → Nat) (hgen : ∀ k, gen k = c)
    (T : Int) (hlo : second cfg MinBr ≤ T) (hhi : T ≤ second cfg MaxBr) :
    ∀ (fuel k : Nat) (r : Ramp), r.target_br = T →
      second cfg MinBr ≤ r.scrBr → r.scrBr ≤ second cfg MaxBr →
      (r.scrBr - T).natAbs ≤ fuel →
      ∃ new : List Int,
        rampLoop cfg c gen fuel k r = some ⟨T, T, r.steps ++ new⟩
          ∧ new.length = (r.scrBr - T).natAbs
          ∧ List.Chain (toward T) r.scrBr new := by
  intro fuel
  induction fuel with
  | zero =>
    intro k r hT _ _ hf
    have heq : r.scrBr = T := by omega
    refine ⟨[], ?_, by simp [heq], List.Chain.nil⟩
    have hcond : ¬ (r.scrBr ≠ r.target_br ∧ c = gen k) := by
      rw [hT]; exact fun h => h.1 heq
    simp only [rampLoop, if_neg hcond, List.append_nil]
    conv_lhs => rw [ramp_eta r, heq, hT]
  | succ fuel ih =>
    intro k r hT h1 h2 hf
    by_cases heq : r.scrBr = T
    · refine ⟨[], ?_, by simp [heq], List.Chain.nil⟩
      have hcond : ¬ (r.scrBr ≠ r.target_br ∧ c = gen k) := by
        rw [hT]; exact fun h => h.1 heq
      simp only [rampLoop, if_neg hcond, List.append_nil]
      conv_lhs => rw [ramp_eta r, heq, hT]
    · have hcond : r.scrBr ≠ r.target_br ∧ c = gen k := ⟨by rw [hT]; exact heq, (hgen k).symm⟩
      have htow := stepOnce_toward r.scrBr T heq
      have hstep : stepOnce r.scrBr r.target_br = stepOnce r.scrBr T := by rw [hT]
      by_cases hb : stepOnce r.scrBr T = second cfg MinBr
          ∨ stepOnce r.scrBr T = second cfg MaxBr
      · have hreach : stepOnce r.scrBr T = T := by
          unfold toward at htow
          rcases htow with ⟨g1, g2⟩ | ⟨g1, g2⟩ <;> rcases hb with hb | hb <;> omega
        refine ⟨[stepOnce r.scrBr T], ?_, ?_, List.Chain.cons htow List.Chain.nil⟩
        · simp only [rampLoop]
          rw [if_pos hcond, hstep, if_pos hb, hreach]
        · unfold toward at htow
          simp only [List.length_singleton]
          rcases htow with ⟨g1, g2⟩ | ⟨g1, g2⟩ <;> omega
      · have hin : second cfg MinBr ≤ stepOnce r.scrBr T
            ∧ stepOnce r.scrBr T ≤ second cfg MaxBr := by
          unfold toward at htow
          rcases htow with ⟨g1, g2⟩ | ⟨g1, g2⟩ <;> constructor <;> omega
        have hdist : (stepOnce r.scrBr T - T).natAbs + 1 = (r.scrBr - T).natAbs := by
          unfold toward at htow
          rcases htow with ⟨g1, g2⟩ | ⟨g1, g2⟩ <;> omega
        obtain ⟨new, e1, e2, e3⟩ :=
          ih (k + 1) ⟨stepOnce r.scrBr T, T, r.steps ++ [stepOnce r.scrBr T]⟩ rfl
            hin.1 hin.2 (by simp only; omega)
        refine ⟨stepOnce r.scrBr T :: new, ?_, ?_, List.Chain.cons htow e3⟩
        · simp only [rampLoop]
          rw [if_pos hcond, hstep, if_neg hb, hT, e1]
          simp
        · simp only [List.length_cons, e2]
          simp only at hdist
          omega

/-- The stepping loop run against a generation that stays the working one
for the first `n` reads, `n` being at most the distance to the target, and
that is either another one at the next read or no longer needed because the
target is reached: exactly `n` steps are taken, each one unit toward the
target, and the target is left as it was. -/
lemma rampLoop_exact (cfg : Cfg) (c : Nat) (gen : Nat → Nat)
    (T : Int) (hlo : second cfg MinBr ≤ T) (hhi : T ≤ second cfg MaxBr) :
    ∀ (fuel k n : Nat) (r : Ramp), r.target_br = T →
      second cfg MinBr ≤ r.scrBr → r.scrBr ≤ second cfg MaxBr →
      (r.scrBr - T).natAbs ≤ fuel → n ≤ (r.scrBr - T).natAbs →
      (∀ j, j < n → gen (k + j) = c) →
      (n = (r.scrBr - T).natAbs ∨ gen (k + n) ≠ c) →
      ∃ (f : Int) (new : List Int),
        rampLoop cfg c gen fuel k r = some ⟨f, T, r.steps ++ new⟩
          ∧ new.length = n
          ∧ List.Chain (toward T) r.scrBr new
          ∧ (f - T).natAbs + n = (r.scrBr - T).natAbs := by
  intro fuel
  induction fuel with
  | zero =>
    intro k n r hT _ _ hf hn _ _
    have heq : r.scrBr = T := by omega
    have hn0 : n = 0 := by omega
    subst hn0
    refine ⟨T, [], ?_, rfl, List.Chain.nil, by omega⟩
    have hcond : ¬ (r.scrBr ≠ r.target_br ∧ c = gen k) := by
      rw [hT]; exact fun h => h.1 heq
    simp only [rampLoop, if_neg hcond, List.append_nil]
    conv_lhs => rw [ramp_eta r, heq, hT]
  | succ fuel ih =>
    intro k n r hT h1 h2 hf hn hgen hstop
    cases n with
    | zero =>
      have hcond : ¬ (r.scrBr ≠ r.target_br ∧ c = gen k) := by
        rw [hT]
        rintro ⟨g1, g2⟩
        rcases hstop with hs | hs
        · exact g1 (by omega)
        · exact hs (by simpa using g2.symm)
      refine ⟨r.scrBr, [], ?_, rfl, List.Chain.nil, by omega⟩
      simp only [rampLoop, if_neg hcond, List.append_nil]
      conv_lhs => rw [ramp_eta r, hT]
    | succ m =>
      have heq : r.scrBr ≠ T := by
        intro h; rw [h] at hn; simp at hn
      have hcond : r.scrBr ≠ r.target_br ∧ c = gen k :=
        ⟨by rw [hT]; exact heq, by simpa using (hgen 0 (by omega)).symm⟩
      have htow := stepOnce_toward r.scrBr T heq
      have hstep : stepOnce r.scrBr r.target_br = stepOnce r.scrBr T := by rw [hT]
      have hdist : (stepOnce r.scrBr T - T).natAbs + 1 = (r.scrBr - T).natAbs := by
        unfold toward at htow
        rcases htow with ⟨g1, g2⟩ | ⟨g1, g2⟩ <;> omega
      by_cases hb : stepOnce r.scrBr T = second cfg MinBr
          ∨ stepOnce r.scrBr T = second cfg MaxBr
      · have hreach : stepOnce r.scrBr T = T := by
          unfold toward at htow
          rcases htow with ⟨g1, g2⟩ | ⟨g1, g2⟩ <;> rcases hb with hb | hb <;> omega
        have hm : m = 0 := by
          rw [hreach] at hdist
          simp at hdist
          omega
        subst hm
        refine ⟨T, [stepOnce r.scrBr T], ?_, rfl, List.Chain.cons htow List.Chain.nil, ?_⟩
        · simp only [rampLoop]
          rw [if_pos hcond, hstep, if_pos hb, hreach]
        · rw [hreach] at hdist
          omega
      · have hin : second cfg MinBr ≤ stepOnce r.scrBr T
            ∧ stepOnce r.scrBr T ≤ second cfg MaxBr := by
          unfold toward at htow
          rcases htow with ⟨g1, g2⟩ | ⟨g1, g2⟩ <;> constructor <;> omega
        obtain ⟨f, new, e1, e2, e3, e4⟩ :=
          ih (k + 1) m ⟨stepOnce r.scrBr T, T, r.steps ++ [stepOnce r.scrBr T]⟩ rfl
            hin.1 hin.2 (by simp only; omega) (by simp only; omega)
            (fun j hj => by
              have := hgen (j + 1) (by omega)
              rw [← this]; congr 1; omega)
            (by
              simp only
              rcases hstop with hs | hs
              · exact Or.inl (by omega)
              · refine Or.inr ?_
                have e : k + 1 + m = k + (m + 1) := by omega
                rw [e]; exact hs)
        refine ⟨f, stepOnce r.scrBr T :: new, ?_, ?_, List.Chain.cons htow e3, ?_⟩
        · simp only [rampLoop]
          rw [if_pos hcond, hstep, if_neg hb, hT, e1]
          simp
        · simp only [List.length_cons, e2]
        · simp only at e4
          omega

/-- What the parser needs to know about a decimal digit character. -/
lemma digitChar_facts :
    ∀ d, d < 10 →
      (digitChar d).isDigit = true ∧ (digitChar d).toNat - 48 = d ∧ digitChar d ≠ newline
        ∧ digitChar d ≠ '=' ∧ isSpace (digitChar d) = false ∧ digitChar d ≠ '-'
        ∧ digitChar d ≠ '+' := by
  decide

/-- Reading digits continues across the end of a run of digits. -/
lemma digitsValue_append (L M : List Char) (hL : ∀ ch ∈ L, ch.isDigit = true) :
    ∀ a : Nat, digitsValue (L ++ M) a = digitsValue M (digitsValue L a) := by
  induction L with
  | nil => intro a; rfl
  | cons ch L ih =>
    intro a
    have hch : ch.isDigit = true := hL ch (List.mem_cons_self _ _)
    simp only [List.cons_append, digitsValue, if_pos hch]
    exact ih (fun x hx => hL x (List.mem_cons_of_mem _ hx)) _

/-- With enough fuel the digits written for `n` are a non-empty run of digit
characters that reads back as `n`. -/
lemma natDigitsAux_spec :
    ∀ (fuel n : Nat) (acc : List Char), n < fuel →
      ∃ L : List Char,
        natDigitsAux fuel n acc = L ++ acc ∧ L ≠ []
          ∧ (∀ ch ∈ L, ∃ d, d < 10 ∧ ch = digitChar d)
          ∧ digitsValue L 0 = n := by
  intro fuel
  induction fuel with
  | zero => intro n acc h; omega
  | succ fuel ih =>
    intro n acc h
    have hd : n % 10 < 10 := Nat.mod_lt _ (by decide)
    obtain ⟨f1, f2, -⟩ := digitChar_facts (n % 10) hd
    by_cases h0 : n / 10 = 0
    · refine ⟨[digitChar (n % 10)], ?_, by simp, ?_, ?_⟩
      · simp only [natDigitsAux, if_pos h0, List.singleton_append]
      · intro ch hch
        exact ⟨n % 10, hd, by simpa using hch⟩
      · simp only [digitsValue, if_pos f1, f2]
        omega
    · obtain ⟨L, e1, -, e3, e4⟩ := ih (n / 10) (digitChar (n % 10) :: acc) (by omega)
      refine ⟨L ++ [digitChar (n % 10)], ?_, by simp, ?_, ?_⟩
      · simp only [natDigitsAux, if_neg h0, e1, List.append_assoc, List.singleton_append]
      · intro ch hch
        rcases List.mem_append.1 hch with hch | hch
        · exact e3 ch hch
        · exact ⟨n % 10, hd, by simpa using hch⟩
      · have hL : ∀ ch ∈ L, ch.isDigit = true := by
          intro ch hch
          obtain ⟨d, hd1, rfl⟩ := e3 ch hch
          exact (digitChar_facts d hd1).1
        rw [digitsValue_append L _ hL, e4]
        simp only [digitsValue, if_pos f1, f2]
        omega

/-- A minus sign followed by digits is read as the negated number. -/
lemma stoi_minus (body : List Char) (hb : startsWithDigit body = true)
    (h1 : -2147483648 ≤ -(digitsValue body 0 : Int)) :
    stoi ('-' :: body) = some (-(digitsValue body 0 : Int)) := by
  have hsp : isSpace '-' = false := by decide
  have h2 : -(digitsValue body 0 : Int) ≤ 2147483647 := by omega
  simp [stoi, hsp, hb, h1, h2]

/-- Digits without a sign are read as the number. -/
lemma stoi_plain (c : Char) (rest : List Char) (hd : c.isDigit = true)
    (hs : isSpace c = false) (hm : c ≠ '-') (hp : c ≠ '+')
    (h2 : (digitsValue (c :: rest) 0 : Int) ≤ 2147483647) :
    stoi (c :: rest) = some (digitsValue (c :: rest) 0 : Int) := by
  have h1 : -2147483648 ≤ (digitsValue (c :: rest) 0 : Int) := by omega
  simp [stoi, hs, hm, hp, startsWithDigit, hd, h1, h2]

/-- The text of an `int` is read back by `std::stoi` as the same value, and
holds neither a line feed nor an equals sign. -/
lemma stoi_to_string (v : Int) (hv : fitsInt v) :
    stoi (to_string v) = some v ∧ newline ∉ to_string v ∧ '=' ∉ to_string v := by
  obtain ⟨L, e1, e2, e3, e4⟩ := natDigitsAux_spec (v.natAbs + 1) v.natAbs [] (by omega)
  rw [List.append_nil] at e1
  obtain ⟨c, rest, rfl⟩ := List.exists_cons_of_ne_nil e2
  obtain ⟨d, hd, hc⟩ := e3 c (List.mem_cons_self _ _)
  obtain ⟨f1, -, f3, f4, f5, f6, f7⟩ := digitChar_facts d hd
  rw [← hc] at f1 f3 f4 f5 f6 f7
  have hnl : newline ∉ c :: rest := by
    intro hmem
    obtain ⟨d1, hd1, h1⟩ := e3 _ hmem
    exact (digitChar_facts d1 hd1).2.2.1 h1.symm
  have heq : '=' ∉ c :: rest := by
    intro hmem
    obtain ⟨d1, hd1, h1⟩ := e3 _ hmem
    exact (digitChar_facts d1 hd1).2.2.2.1 h1.symm
  unfold fitsInt at hv
  by_cases hneg : v < 0
  · have hts : to_string v = '-' :: c :: rest := by
      simp only [to_string, if_pos hneg, e1]
    have hval : -((digitsValue (c :: rest) 0 : Nat) : Int) = v := by
      rw [e4]; omega
    rw [hts]
    refine ⟨?_, ?_, ?_⟩
    · rw [stoi_minus (c :: rest) (by simpa [startsWithDigit] using f1) (by omega), hval]
    · intro hmem
      rcases List.mem_cons.1 hmem with h | h
      · exact absurd h (by decide)
      · exact hnl h
    · intro hmem
      rcases List.mem_cons.1 hmem with h | h
      · exact absurd h (by decide)
      · exact heq h
  · have hts : to_string v = c :: rest := by
      simp only [to_string, if_neg hneg, e1]
    have hval : ((digitsValue (c :: rest) 0 : Nat) : Int) = v := by
      rw [e4]; omega
    rw [hts]
    refine ⟨?_, hnl, heq⟩
    rw [stoi_plain c rest f1 f5 f6 f7 (by omega), hval]


/-- After a key that holds `=` only as its last character, the part of the
line after the first `=` is what follows the key. -/
lemma afterEquals_key (key t : List Char) (hk : equalsOnlyLast key) :
    afterEquals (key ++ t) = t := by
  obtain ⟨h1, h2⟩ := hk
  have hkey : key.dropLast ++ ['='] = key := List.dropLast_append_getLast? _ h1
  have hne : ∀ a ∈ key.dropLast, (a != '=') = true := by
    intro a ha
    simp only [bne_iff_ne, ne_eq]
    intro h
    exact h2 (h ▸ ha)
  have hmem : (key ++ t).contains '=' = true := by
    rw [← hkey]
    simp
  unfold afterEquals
  rw [if_pos hmem]
  conv_lhs => rw [← hkey, List.append_assoc, List.dropWhile_append_of_pos hne]
  simp

/-- A line without line feed, followed by a line feed, is the next line that
`std::getline` returns. -/
lemma getLines_line (l rest : List Char) (hl : newline ∉ l) :
    ∀ cur : List Char,
      getLines (l ++ newline :: rest) cur = (cur.reverse ++ l) :: getLines rest [] := by
  induction l with
  | nil =>
    intro cur
    simp only [List.nil_append, getLines, if_true, List.append_nil]
  | cons ch l ih =>
    intro cur
    have hch : ch ≠ newline := fun h => hl (h ▸ List.mem_cons_self _ _)
    have hl2 : newline ∉ l := fun h => hl (List.mem_cons_of_mem _ h)
    simp only [List.cons_append, getLines, if_neg hch, List.append_eq]
    rw [ih hl2]
    simp

/-- The store `cfg[c].second = v` changes the value of entry `c` only, and
no key. -/
lemma setSecond_facts (cfg : Cfg) (c : Nat) (v : Int) (hc : c < cfg.length) :
    (setSecond cfg c v).length = cfg.length
      ∧ second (setSecond cfg c v) c = v
      ∧ (∀ i, i ≠ c → second (setSecond cfg c v) i = second cfg i)
      ∧ ∀ i, first (setSecond cfg c v) i = first cfg i := by
  refine ⟨by simp [setSecond], ?_, ?_, ?_⟩
  · simp [second, setSecond, List.getElem?_set, hc]
  · intro i hi
    simp [second, setSecond, List.getElem?_set, Ne.symm hi]
  · intro i
    by_cases hi : c = i
    · subst hi
      simp [first, setSecond, List.getElem?_set, hc]
    · simp [first, setSecond, List.getElem?_set, hi]

/-- Reading the lines written for a list of entries stores their values, in
order, from entry `c` on, and changes nothing else. -/
lemma readLines_configLines :
    ∀ (entries : Cfg) (c : Nat) (cfg0 : Cfg),
      (∀ e ∈ entries, equalsOnlyLast e.1 ∧ newline ∉ e.1 ∧ fitsInt e.2) →
      c + entries.length ≤ cfg0.length →
      ∃ cfg1 : Cfg,
        readLines (getLines (configLines entries) []) c cfg0 = some cfg1
          ∧ cfg1.length = cfg0.length
          ∧ (∀ j, j < entries.length → second cfg1 (c + j) = second entries j)
          ∧ (∀ i, first cfg1 i = first cfg0 i)
          ∧ (∀ i, i < c → second cfg1 i = second cfg0 i) := by
  intro entries
  induction entries with
  | nil =>
    intro c cfg0 _ _
    exact ⟨cfg0, by simp [configLines, getLines, readLines], rfl, by simp,
      fun _ => rfl, fun _ _ => rfl⟩
  | cons e es ih =>
    intro c cfg0 hall hlen
    obtain ⟨hk, hnl, hv⟩ := hall e (List.mem_cons_self _ _)
    obtain ⟨hs1, hs2, -⟩ := stoi_to_string e.2 hv
    have hc : c < cfg0.length := by
      simp only [List.length_cons] at hlen; omega
    obtain ⟨g1, g2, g3, g4⟩ := setSecond_facts cfg0 c e.2 hc
    obtain ⟨cfg1, r1, r2, r3, r4, r5⟩ := ih (c + 1) (setSecond cfg0 c e.2)
      (fun x hx => hall x (List.mem_cons_of_mem _ hx))
      (by simp only [List.length_cons] at hlen; rw [g1]; omega)
    have hline : newline ∉ e.1 ++ to_string e.2 := by
      intro h
      rcases List.mem_append.1 h with h | h
      · exact hnl h
      · exact hs2 h
    have hfile : configLines (e :: es)
        = (e.1 ++ to_string e.2) ++ newline :: configLines es := by
      simp [configLines]
    have hne : (e.1 ++ to_string e.2).isEmpty = false := by
      have : e.1 ≠ [] := by
        intro h0
        have := hk.1
        rw [h0] at this
        cases this
      cases he : e.1 with
      | nil => exact absurd he this
      | cons a as => rfl
    refine ⟨cfg1, ?_, by rw [r2, g1], ?_, fun i => by rw [r4, g4], ?_⟩
    · rw [hfile, getLines_line _ _ hline]
      simp only [List.reverse_nil, List.nil_append, readLines, hne, Bool.false_eq_true,
        if_false, afterEquals_key e.1 _ hk, hs1, if_pos hc]
      exact r1
    · intro j hj
      cases j with
      | zero =>
        rw [Nat.add_zero, r5 c (by omega), g2]
        rfl
      | succ j =>
        have := r3 j (by simpa using hj)
        have e1 : c + (j + 1) = c + 1 + j := by omega
        rw [e1, this]
        rfl
    · intro i hi
      rw [r5 i (by omega), g3 i (by omega)]


/-- On an array of `cfg_count` entries the loop of `updateConfig` writes the
line of every entry, in order. -/
lemma updateConfig_eq (cfg : Cfg) (h : cfg.length = cfg_count) :
    updateConfig cfg = configLines cfg := by
  unfold cfg_count at h
  rcases cfg with _ | ⟨e0, _ | ⟨e1, _ | ⟨e2, _ | ⟨e3, _ | ⟨e4, _ | ⟨e5, _ | ⟨e6, _ | ⟨e7, t⟩⟩⟩⟩⟩⟩⟩⟩
  all_goals first
    | rfl
    | (simp only [List.length_cons, List.length_nil] at h; omega)

/-- For `cfg_count` entries whose values fit an `int` and whose key strings
are single lines that hold `=` only as their last character, `readConfig`
reads the file written by `updateConfig` without failure, stores in every
entry the value that was written for it, and leaves the keys alone. -/
lemma updateConfig_readConfig (cfg cfg0 : Cfg)
    (hlen : cfg.length = cfg_count) (hlen0 : cfg0.length = cfg_count)
    (hall : ∀ e ∈ cfg, equalsOnlyLast e.1 ∧ newline ∉ e.1 ∧ fitsInt e.2) :
    ∃ cfg1 : Cfg,
      readConfig (updateConfig cfg) cfg0 = some (updateConfig cfg, cfg1)
        ∧ cfg1.length = cfg_count
        ∧ ∀ i, i < cfg_count → second cfg1 i = second cfg i ∧ first cfg1 i = first cfg0 i := by
  obtain ⟨cfg1, r1, r2, r3, r4, -⟩ :=
    readLines_configLines cfg 0 cfg0 hall (by rw [hlen, hlen0]; decide)
  have hne : (updateConfig cfg).isEmpty = false := by
    rw [updateConfig_eq cfg hlen]
    cases cfg with
    | nil => exact absurd hlen (by decide)
    | cons e es =>
      have : configLines (e :: es) = e.1 ++ (to_string e.2 ++ newline :: configLines es) := by
        simp [configLines]
      rw [this]
      cases e.1 with
      | nil =>
        cases to_string e.2 with
        | nil => rfl
        | cons a as => rfl
      | cons a as => rfl
  refine ⟨cfg1, ?_, by rw [r2, hlen0], ?_⟩
  · simp only [readConfig, hne, Bool.false_eq_true, if_false]
    rw [updateConfig_eq cfg hlen, r1]
    rfl
  · intro i hi
    refine ⟨?_, r4 i⟩
    have := r3 i (by rw [hlen]; exact hi)
    rw [Nat.zero_add] at this
    exact this

/-- The value of entry `i` of keys zipped with values is the `i`-th value. -/
lemma second_zip :
    ∀ (keys : List (List Char)) (vals : List Int) (i : Nat), i < keys.length →
      second (keys.zip vals) i = vals.getD i 0 := by
  intro keys
  induction keys with
  | nil => intro vals i h; simp at h
  | cons k ks ih =>
    intro vals i h
    cases vals with
    | nil => simp [second]
    | cons v vs =>
      cases i with
      | zero => simp [second]
      | succ i =>
        have := ih vs i (by simpa using h)
        simpa [second] using this

/-- The keys of the configuration are single lines that hold `=` only as
their last character. -/
lemma keyStrings_facts : ∀ key ∈ keyStrings, equalsOnlyLast key ∧ newline ∉ key := by
  decide

/-- C14: for every assignment of values that fit an `int` (negative ones
included) to the `cfg_count` entries, each key of the configuration holds
`=` only as its last character, and `readConfig` reads the file that
`updateConfig` wrote (one line per entry: key, then decimal value) without
failure, stores in every entry exactly the value written for it and leaves
the keys alone; the same holds for any other `cfg_count` single-line keys
that hold `=` only as their last character. -/
theorem updateConfig_round_trip (vals : List Int) (cfg0 : Cfg)
    (hlen : vals.length = cfg_count) (hlen0 : cfg0.length = cfg_count)
    (hv : ∀ v ∈ vals, fitsInt v) :
    (∀ key ∈ keyStrings, equalsOnlyLast key)
      ∧ (∃ cfg1 : Cfg,
          readConfig (updateConfig (keyStrings.zip vals)) cfg0
              = some (updateConfig (keyStrings.zip vals), cfg1)
            ∧ cfg1.length = cfg_count
            ∧ ∀ i, i < cfg_count → second cfg1 i = vals.getD i 0 ∧ first cfg1 i = first cfg0 i)
      ∧ ∀ keys : List (List Char), keys.length = cfg_count →
          (∀ key ∈ keys, equalsOnlyLast key ∧ newline ∉ key) →
          ∃ cfg1 : Cfg,
            readConfig (updateConfig (keys.zip vals)) cfg0
                = some (updateConfig (keys.zip vals), cfg1)
              ∧ cfg1.length = cfg_count
              ∧ ∀ i, i < cfg_count →
                  second cfg1 i = vals.getD i 0 ∧ first cfg1 i = first cfg0 i := by
  have general : ∀ keys : List (List Char), keys.length = cfg_count →
      (∀ key ∈ keys, equalsOnlyLast key ∧ newline ∉ key) →
      ∃ cfg1 : Cfg,
        readConfig (updateConfig (keys.zip vals)) cfg0
            = some (updateConfig (keys.zip vals), cfg1)
          ∧ cfg1.length = cfg_count
          ∧ ∀ i, i < cfg_count →
              second cfg1 i = vals.getD i 0 ∧ first cfg1 i = first cfg0 i := by
    intro keys hk hkeys
    have hzl : (keys.zip vals).length = cfg_count := by
      rw [List.length_zip, hk, hlen, min_self]
    have hall : ∀ e ∈ keys.zip vals, equalsOnlyLast e.1 ∧ newline ∉ e.1 ∧ fitsInt e.2 := by
      intro e he
      obtain ⟨m1, m2⟩ := List.of_mem_zip (a := e.1) (b := e.2) he
      exact ⟨(hkeys _ m1).1, (hkeys _ m1).2, hv _ m2⟩
    obtain ⟨cfg1, r1, r2, r3⟩ := updateConfig_readConfig (keys.zip vals) cfg0 hzl hlen0 hall
    refine ⟨cfg1, r1, r2, ?_⟩
    intro i hi
    obtain ⟨q1, q2⟩ := r3 i hi
    refine ⟨?_, q2⟩
    rw [q1, second_zip keys vals i (by rw [hk]; exact hi)]
  exact ⟨fun key hkey => (keyStrings_facts key hkey).1,
    general keyStrings (by decide) keyStrings_facts, general⟩

/-- C14 (witness): seven values, among them the smallest and the largest
`int`, written under the keys of the configuration and read back into the
default configuration. -/
theorem updateConfig_round_trip_witness :
    ∃ cfg1 : Cfg,
      readConfig (updateConfig (keyStrings.zip [-5, 0, 2147483647, -2147483648, 3, 32, 100]))
          defaultCfg
        = some (updateConfig (keyStrings.zip [-5, 0, 2147483647, -2147483648, 3, 32, 100]), cfg1)
        ∧ cfg1.length = cfg_count
        ∧ ∀ i, i < cfg_count →
            second cfg1 i = [-5, 0, 2147483647, -2147483648, 3, 32, 100].getD i 0
              ∧ first cfg1 i = first defaultCfg i :=
  (updateConfig_round_trip [-5, 0, 2147483647, -2147483648, 3, 32, 100] defaultCfg
    (by decide) (by decide) (by decide)).2.1

end Gammy
